import Mathlib

/-!
# Verification of the desktop session manager of `liampower.ie`

This file gives a shallow embedding of the virtual file system and window
manager implemented in `src/app/page.tsx` and proves properties of the
embedded operations.

The JavaScript code mutates a shared tree in place.  The embedding threads
the tree explicitly: every operation takes the root and returns the (success
flag, new root) pair; the in-place property writes along a path become
functional updates along the same path (`updateAt`).  JavaScript object
records (`Record<string, FSNode>`) are modelled as association lists with
the JS insertion-order semantics: assigning an existing key replaces the
value in place, assigning a fresh key appends, `delete` removes the key.
Nondeterministic inputs (`Date.now()`, `new Date().toISOString()`,
`Math.random()`) are passed in as explicit oracle arguments.
-/

/-- The optional recycle-bin metadata fields that `RecycledFile` /
`RecycledFolder` in `page.tsx` add on top of `FSFile` / `FSFolder`.
A node outside the recycle bin normally has all three fields absent. -/
structure RecycleMeta where
  originalPath : Option (List String)
  originalName : Option String
  deletedAt : Option String
deriving Repr, DecidableEq

/-- The metadata of a plain (non-recycled) node: no fields present. -/
def noMeta : RecycleMeta := ⟨none, none, none⟩

/-- `FSNode` from `page.tsx`: a tagged union of
`FSFile = { type: 'file', ext, size, content? }` and
`FSFolder = { type: 'folder', children }`, where `children` is a
string-keyed record of child nodes.  Every node also carries the three
optional recycle-metadata fields (absent on plain nodes), mirroring the
`RecycledFile` / `RecycledFolder` extensions. -/
inductive FSNode where
  | file (ext : String) (size : Nat) (content : Option String) (meta : RecycleMeta)
  | folder (children : List (String × FSNode)) (meta : RecycleMeta)

/-- The metadata fields of a node. -/
def FSNode.metaOf : FSNode → RecycleMeta
  | .file _ _ _ m => m
  | .folder _ m => m

/-- The JS spread `{ ...item, originalPath, originalName, deletedAt }`:
copy the node, overwriting the three metadata fields. -/
def FSNode.withMeta : FSNode → RecycleMeta → FSNode
  | .file e s c _, m => .file e s c m
  | .folder cs _, m => .folder cs m

/-- The restore step of `restoreFromRecycleBin`: rebuild the node from its
payload fields only, dropping the recycle metadata (lines 264-272). -/
def FSNode.stripMeta : FSNode → FSNode
  | .file e s c _ => .file e s c noMeta
  | .folder cs _ => .folder cs noMeta

/-- JS record lookup `children[name]`: the value at the first (unique in JS)
occurrence of the key, or `none` when the property is absent. -/
def lookupChild : List (String × FSNode) → String → Option FSNode
  | [], _ => none
  | (k, v) :: rest, key => if k = key then some v else lookupChild rest key

/-- JS record assignment `children[name] = v`: replace the value at an
existing key in place, or append a fresh key at the end. -/
def setKey : List (String × FSNode) → String → FSNode → List (String × FSNode)
  | [], key, v => [(key, v)]
  | (k, w) :: rest, key, v =>
      if k = key then (k, v) :: rest else (k, w) :: setKey rest key v

/-- JS record deletion `delete children[name]`: drop the key, keeping the
order of the remaining entries. -/
def delKey : List (String × FSNode) → String → List (String × FSNode)
  | [], _ => []
  | (k, v) :: rest, key =>
      if k = key then delKey rest key else (k, v) :: delKey rest key

/-- Rebuild one child of a record: apply `g` to the value at `key`,
leaving everything else untouched.  This is how an in-place mutation of a
node reached through key `key` is rendered functionally. -/
def replaceChild (key : String) (g : FSNode → FSNode) : List (String × FSNode) → List (String × FSNode)
  | [] => []
  | (k, v) :: rest =>
      if k = key then (k, g v) :: rest else (k, v) :: replaceChild key g rest

/-- `getNodeByPath` (lines 161-172): walk the path; the empty path yields
the current node; each traversed node must be a folder containing the next
segment, otherwise the lookup returns `null`. -/
def getNodeByPath : FSNode → List String → Option FSNode
  | n, [] => some n
  | .folder cs _, p :: ps =>
      match lookupChild cs p with
      | some c => getNodeByPath c ps
      | none => none
  | .file _ _ _ _, _ :: _ => none

/-- Functional rendering of an in-place mutation of the `children` record of
the folder reached by `path`: rebuild the tree with `f` applied to that
record.  When the path does not lead to a folder the tree is unchanged
(the corresponding JS code never mutates in that situation). -/
def updateAt : List String → (List (String × FSNode) → List (String × FSNode)) → FSNode → FSNode
  | [], f, .folder cs m => .folder (f cs) m
  | p :: ps, f, .folder cs m => .folder (replaceChild p (updateAt ps f) cs) m
  | _, _, n => n

/-- `createFile` (lines 175-189): resolve `path`; fail unless it is a
folder; otherwise write a fresh `txt` file of size `content.length` under
`filename` (replacing any existing child) and succeed. -/
def createFile (root : FSNode) (path : List String) (filename content : String) :
    Bool × FSNode :=
  match getNodeByPath root path with
  | some (.folder _ _) =>
      (true, updateAt path
        (fun cs => setKey cs filename (.file "txt" content.length (some content) noMeta)) root)
  | _ => (false, root)

/-- `updateFile` (lines 191-202): as `createFile` but additionally fail
unless an existing file child is present under `filename`; mutate only its
`size` and `content` fields. -/
def updateFile (root : FSNode) (path : List String) (filename content : String) :
    Bool × FSNode :=
  match getNodeByPath root path with
  | some (.folder cs _) =>
      match lookupChild cs filename with
      | some (.file ext _ _ m) =>
          (true, updateAt path
            (fun cs' => setKey cs' filename (.file ext content.length (some content) m)) root)
      | _ => (false, root)
  | _ => (false, root)

/-- Result of `moveToRecycleBin`: the JS function can return a flag, but it
can also throw a `TypeError` (when the root has a child named
`"Recycle Bin"` that is a file, the cast `as FSFolder` on line 234 makes
`recycleBin.children` evaluate to `undefined` and the assignment on
line 235 throws). -/
inductive MoveResult where
  | thrown
  | ret (success : Bool) (root : FSNode)

/-- `moveToRecycleBin` (lines 205-242).  `tsName` is the oracle for the
sanitised timestamp interpolated into the recycled name
(`new Date().toISOString().replace(/[:.]/g, '-')`) and `tsDeleted` the
oracle for the `deletedAt` stamp (a second `new Date()`).

Steps, in source order: resolve the source folder, look up the item,
lazily create the root-level recycle bin, insert the item under
`itemName ++ "_" ++ tsName` carrying metadata, delete the item from the
source folder.  When the existing `"Recycle Bin"` child is a file the
insertion throws (see `MoveResult`). -/
def moveToRecycleBin (root : FSNode) (itemPath : List String) (itemName : String)
    (tsName tsDeleted : String) : MoveResult :=
  match getNodeByPath root itemPath with
  | some (.folder srcCs _) =>
      match lookupChild srcCs itemName with
      | some item =>
          match root with
          | .folder rootCs rootMeta =>
              let recycledName := itemName ++ "_" ++ tsName
              let recycled := item.withMeta ⟨some itemPath, some itemName, some tsDeleted⟩
              match lookupChild rootCs "Recycle Bin" with
              | none =>
                  let root1 := FSNode.folder (setKey rootCs "Recycle Bin" (.folder [] noMeta)) rootMeta
                  let root2 := updateAt ["Recycle Bin"] (fun cs => setKey cs recycledName recycled) root1
                  .ret true (updateAt itemPath (fun cs => delKey cs itemName) root2)
              | some (.folder _ _) =>
                  let root2 := updateAt ["Recycle Bin"] (fun cs => setKey cs recycledName recycled) root
                  .ret true (updateAt itemPath (fun cs => delKey cs itemName) root2)
              | some (.file _ _ _ _) => .thrown
          | .file _ _ _ _ => .ret false root
      | none => .ret false root
  | _ => .ret false root

/-- The original location recorded on a recycle entry:
`recycledItem.originalPath || []` (line 252; an absent field falls back on
the empty path, the root). -/
def recOriginalPath (item : FSNode) : List String :=
  (item.metaOf.originalPath).getD []

/-- The original name recorded on a recycle entry:
`recycledItem.originalName || recycledName` (line 253; an absent *or empty*
recorded name is falsy in JS and falls back on the recycled name). -/
def recOriginalName (item : FSNode) (recycledName : String) : String :=
  match item.metaOf.originalName with
  | none => recycledName
  | some s => if s = "" then recycledName else s

/-- `restoreFromRecycleBin` (lines 244-281).  Fail when the root has no
folder child `"Recycle Bin"`, when it has no entry under `recycledName`,
or when the recorded original path is non-empty and does not resolve to a
folder.  Otherwise insert the metadata-stripped copy at the original
location and delete the recycle entry.

Two JS subtleties are preserved: `originalName || recycledName` falls back
on the recycled name when the recorded name is absent *or the empty
string* (falsiness), and when the restored item replaces the bin itself
(`originalPath = []`, `originalName = "Recycle Bin"`) the final
`delete recycleBin.children[recycledName]` acts on the detached old bin
object and leaves the tree untouched. -/
def restoreFromRecycleBin (root : FSNode) (recycledName : String) : Bool × FSNode :=
  match root with
  | .folder rootCs rootMeta =>
      match lookupChild rootCs "Recycle Bin" with
      | some (.folder binCs _) =>
          match lookupChild binCs recycledName with
          | some item =>
              let originalPath := recOriginalPath item
              let originalName := recOriginalName item recycledName
              let restored := item.stripMeta
              match originalPath with
              | [] =>
                  let root1 := FSNode.folder (setKey rootCs originalName restored) rootMeta
                  if originalName = "Recycle Bin" then (true, root1)
                  else (true, updateAt ["Recycle Bin"] (fun cs => delKey cs recycledName) root1)
              | _ :: _ =>
                  match getNodeByPath root originalPath with
                  | some (.folder _ _) =>
                      let root1 := updateAt originalPath (fun cs => setKey cs originalName restored) root
                      (true, updateAt ["Recycle Bin"] (fun cs => delKey cs recycledName) root1)
                  | _ => (false, root)
          | none => (false, root)
      | _ => (false, root)
  | _ => (false, root)

/-- `emptyRecycleBin` (lines 283-293): if the root has a child named
`"Recycle Bin"` (of any node kind: the check is truthiness only), replace
it by an empty folder and succeed, otherwise fail. -/
def emptyRecycleBin (root : FSNode) : Bool × FSNode :=
  match root with
  | .folder rootCs m =>
      match lookupChild rootCs "Recycle Bin" with
      | some _ => (true, .folder (setKey rootCs "Recycle Bin" (.folder [] noMeta)) m)
      | none => (false, root)
  | _ => (false, root)

/-- The `children` record of a node (a file has none). -/
def FSNode.childrenOf : FSNode → List (String × FSNode)
  | .file _ _ _ _ => []
  | .folder cs _ => cs

/-- The children record of the root-level `"Recycle Bin"` folder of a tree
(empty when the bin is absent or not a folder). -/
def binChildrenOf (t : FSNode) : List (String × FSNode) :=
  match lookupChild t.childrenOf "Recycle Bin" with
  | some (.folder cs _) => cs
  | _ => []

/-- The children-record transformation a functional update performs on a
folder: at the empty path apply `f` directly, otherwise rebuild the child
named by the first segment. -/
def updateChildren : List String → (List (String × FSNode) → List (String × FSNode)) →
    List (String × FSNode) → List (String × FSNode)
  | [], f, cs => f cs
  | a :: ps, f, cs => replaceChild a (updateAt ps f) cs

/-- Specification-side resolution relation, following the spec's wording:
the empty path resolves to the node itself; a non-empty path resolves when
the node is a folder containing a key equal to the next segment and the
rest of the path resolves from that child. -/
inductive ResolvesTo : FSNode → List String → FSNode → Prop where
  | nil (t : FSNode) : ResolvesTo t [] t
  | cons {cs : List (String × FSNode)} {m : RecycleMeta} {p : String}
      {ps : List String} {c r : FSNode}
      (hc : lookupChild cs p = some c) (h : ResolvesTo c ps r) :
      ResolvesTo (.folder cs m) (p :: ps) r

/-! ## The window manager

`Vec2`, `WindowType`, `WindowPayload` and `WinInstance` mirror the type
declarations at the top of `page.tsx` (positions and sizes are JS numbers
used here only at integral values, modelled as `Int`).  The session state
couples the open-window list with the `useZIndexManager` counter, which
starts at 10; each `next()` call returns and stores `counter + 1`. -/

structure Vec2 where
  x : Int
  y : Int
deriving Repr, DecidableEq

inductive WindowType where
  | fileExplorer
  | notepad
  | recycleBin
  | about
  | imageViewer
  | pdfViewer
deriving Repr, DecidableEq

/-- The string value of the `WindowType` union member. -/
def WindowType.str : WindowType → String
  | .fileExplorer => "file-explorer"
  | .notepad => "notepad"
  | .recycleBin => "recycle-bin"
  | .about => "about"
  | .imageViewer => "image-viewer"
  | .pdfViewer => "pdf-viewer"

structure WindowPayload where
  initialPath : Option (List String)
  text : Option String
  currentFile : Option String
  filePath : Option String
  fileType : Option String
deriving Repr, DecidableEq

structure WinInstance where
  id : String
  title : String
  wtype : WindowType
  position : Vec2
  size : Option (Int × Int)
  minimized : Bool
  z : Nat
  payload : Option WindowPayload
deriving Repr, DecidableEq

/-- The window identifier built on line 1897:
`${type}-${Date.now()}-${Math.random().toString(36).slice(2, 7)}`.
`now` is the oracle for `Date.now()` (a nonnegative integral millisecond
count, rendered in decimal by template interpolation) and `rand` the oracle
for the random base-36 suffix. -/
def mkWindowId (t : WindowType) (now : Nat) (rand : String) : String :=
  t.str ++ "-" ++ Nat.repr now ++ "-" ++ rand

/-- The window title chosen in `openApp` (lines 1900-1911); the payload
file name is substituted with a falsy fallback. -/
def windowTitle (t : WindowType) (payload : Option WindowPayload) : String :=
  let current : Option String := payload.bind (fun p => p.currentFile)
  match t with
  | .fileExplorer => "File Explorer"
  | .notepad => "Notepad"
  | .recycleBin => "Recycle Bin"
  | .imageViewer =>
      "Image Viewer - " ++ (match current with
        | some s => if s = "" then "Image" else s
        | none => "Image")
  | .pdfViewer =>
      "PDF Viewer - " ++ (match current with
        | some s => if s = "" then "PDF" else s
        | none => "PDF")
  | .about => "About"

/-- The kind-specific default size (lines 1916-1920). -/
def windowSize : WindowType → Int × Int
  | .fileExplorer => (760, 520)
  | .about => (720, 720)
  | .imageViewer => (800, 600)
  | .pdfViewer => (800, 600)
  | _ => (520, 360)

/-- The session state: the `windows` list and the `useZIndexManager`
counter (initially 10). -/
structure SessionState where
  counter : Nat
  windows : List WinInstance

def initSession : SessionState := ⟨10, []⟩

/-- `openApp` (lines 1896-1924): build a window with a fresh id, the next
stacking value, a randomized position offset by `12 *` the number of open
windows (`randPosition(windows.length * 12)`; `rx`, `ry` are the oracles
for the two floored random coordinates), and append it.  -/
def openApp (s : SessionState) (t : WindowType) (payload : Option WindowPayload)
    (now : Nat) (rand : String) (rx ry : Int) : SessionState :=
  let z := s.counter + 1
  let off : Int := (s.windows.length : Int) * 12
  let base : WinInstance :=
    { id := mkWindowId t now rand
      title := windowTitle t payload
      wtype := t
      position := ⟨rx + off, ry + off⟩
      size := some (windowSize t)
      minimized := false
      z := z
      payload := payload }
  { counter := z, windows := s.windows ++ [base] }

/-- `bringToFront` (lines 1803-1806): draw the next stacking value and give
it to the window with the given id (the counter advances even when the id
is absent). -/
def bringToFront (s : SessionState) (id : String) : SessionState :=
  let zTop := s.counter + 1
  { counter := zTop
    windows := s.windows.map (fun w => if w.id = id then { w with z := zTop } else w) }

/-- `closeWindow` (lines 1814-1816). -/
def closeWindow (s : SessionState) (id : String) : SessionState :=
  { s with windows := s.windows.filter (fun w => !(w.id = id)) }

/-- `toggleMinimize` (lines 1808-1812). -/
def toggleMinimize (s : SessionState) (id : String) : SessionState :=
  { s with windows := s.windows.map (fun w =>
      if w.id = id then { w with minimized := !w.minimized } else w) }

/-- `moveWindow` (lines 1818-1836): clamp the proposed position into
`[0, max 0 (viewportW - 320 - 24)] × [0, max 0 (viewportH - 200 - 48)]`
and store it on the window with the given id. -/
def moveWindow (ws : List WinInstance) (viewportW viewportH : Int) (id : String)
    (pos : Vec2) : List WinInstance :=
  let padding : Int := 24
  let maxX : Int := max 0 (viewportW - 320 - padding)
  let maxY : Int := max 0 (viewportH - 200 - 48)
  ws.map (fun w =>
    if w.id = id then
      { w with position := ⟨min (max 0 pos.x) maxX, min (max 0 pos.y) maxY⟩ }
    else w)

/-- One user-driven session event, with the nondeterministic inputs of the
corresponding handler supplied as oracle data. -/
inductive SessionEvent where
  | openWin (t : WindowType) (payload : Option WindowPayload) (now : Nat)
      (rand : String) (rx ry : Int)
  | focus (id : String)
  | close (id : String)
  | minimize (id : String)
  | move (id : String) (pos : Vec2) (vw vh : Int)

def stepSession : SessionState → SessionEvent → SessionState
  | s, .openWin t p now rand rx ry => openApp s t p now rand rx ry
  | s, .focus id => bringToFront s id
  | s, .close id => closeWindow s id
  | s, .minimize id => toggleMinimize s id
  | s, .move id pos vw vh => { s with windows := moveWindow s.windows vw vh id pos }

def runSession : SessionState → List SessionEvent → SessionState
  | s, [] => s
  | s, e :: es => runSession (stepSession s e) es

/-- The identifiers returned by the `openWindow` calls of an event list,
in order. -/
def openedIds : List SessionEvent → List String
  | [] => []
  | .openWin t _ now rand _ _ :: es => mkWindowId t now rand :: openedIds es
  | _ :: es => openedIds es

/-- The `(type, Date.now(), random-suffix)` draws of the `openWindow` calls
of an event list, in order. -/
def eventDraws : List SessionEvent → List (WindowType × Nat × String)
  | [] => []
  | .openWin t _ now rand _ _ :: es => (t, now, rand) :: eventDraws es
  | _ :: es => eventDraws es

/-- A string avoiding the dash separator of window identifiers.  The
base-36 suffix `Math.random().toString(36).slice(2, 7)` always satisfies
this: base-36 digits are `0-9a-z`. -/
abbrev dashFree (s : String) : Prop := ∀ c ∈ s.data, c ≠ '-'

/-- Reference decimal rendering of a natural number, used to reason about
`Nat.repr`: the digit characters of `n`, most significant first. -/
def natDigits (n : Nat) : List Char :=
  if _h : n < 10 then [Nat.digitChar n]
  else natDigits (n / 10) ++ [Nat.digitChar (n % 10)]
decreasing_by exact Nat.div_lt_self (by omega) (by omega)

/-! ## Persistence

`loadFileSystem` (lines 131-145) reads a single `localStorage` slot and
falls back on the built-in default tree when the slot is missing, empty
(falsy) or fails `JSON.parse`; any successfully parsed value is returned
as-is, with no shape validation.  The JSON universe and the parse outcome
are modelled explicitly; `parse` is the oracle for `JSON.parse`
(`none` = the call threw). -/

inductive JsonVal where
  | null
  | bool (b : Bool)
  | num (n : Int)
  | str (s : String)
  | arr (elems : List JsonVal)
  | obj (fields : List (String × JsonVal))

/-- JSON object field lookup. -/
def jLookup : List (String × JsonVal) → String → Option JsonVal
  | [], _ => none
  | (k, v) :: rest, key => if k = key then some v else jLookup rest key

/-- The value the session starts from: the built-in default tree, or a
deserialized blob taken at face value. -/
inductive LoadResult where
  | defaultTree
  | parsed (j : JsonVal)

/-- `loadFileSystem` (lines 131-145).  `hasWindow` models the
`typeof window === 'undefined'` guard; `slot` the stored string (if any);
`parse` the `JSON.parse` oracle.  An empty stored string is falsy and also
falls back on the default. -/
def loadFileSystem (hasWindow : Bool) (slot : Option String)
    (parse : String → Option JsonVal) : LoadResult :=
  if hasWindow then
    match slot with
    | some s =>
        if s = "" then .defaultTree
        else
          match parse s with
          | some j => .parsed j
          | none => .defaultTree
    | none => .defaultTree
  else .defaultTree

/-- Structural validity of a parsed blob: the shape of the `FSNode` union
expected by the rest of the code (`{type:'file', ext, size, ...}` or
`{type:'folder', children: {...}}` with node-shaped children). -/
inductive IsNodeShapeJson : JsonVal → Prop where
  | file (fields : List (String × JsonVal)) (ext : String) (size : Int)
      (hty : jLookup fields "type" = some (.str "file"))
      (hext : jLookup fields "ext" = some (.str ext))
      (hsize : jLookup fields "size" = some (.num size)) :
      IsNodeShapeJson (.obj fields)
  | folder (fields : List (String × JsonVal)) (children : List (String × JsonVal))
      (hty : jLookup fields "type" = some (.str "folder"))
      (hch : jLookup fields "children" = some (.obj children))
      (hrec : ∀ p ∈ children, IsNodeShapeJson p.2) :
      IsNodeShapeJson (.obj fields)

/-- The exact failure condition of `restoreFromRecycleBin`: the root has
no folder child `"Recycle Bin"`, or the bin has no entry under the
recycled name, or the entry's recorded original path is non-empty and does
not resolve to a folder. -/
def restoreFailConds (rootCs : List (String × FSNode)) (rootMeta : RecycleMeta)
    (rn : String) : Prop :=
  (∀ bcs bm, lookupChild rootCs "Recycle Bin" ≠ some (.folder bcs bm)) ∨
  (∃ bcs bm, lookupChild rootCs "Recycle Bin" = some (.folder bcs bm) ∧
    lookupChild bcs rn = none) ∨
  (∃ bcs bm item, lookupChild rootCs "Recycle Bin" = some (.folder bcs bm) ∧
    lookupChild bcs rn = some item ∧ recOriginalPath item ≠ [] ∧
    ∀ dcs dm, getNodeByPath (.folder rootCs rootMeta) (recOriginalPath item) ≠
      some (.folder dcs dm))

/-! ## Order-irrelevant tree equality

The spec compares trees "as order-irrelevant nested maps": two folders are
equal when they have the same keys and recursively equal children,
regardless of the order of the sibling lists. -/

/-- Lift a node relation to optional nodes. -/
inductive OptEquiv (R : FSNode → FSNode → Prop) : Option FSNode → Option FSNode → Prop where
  | none : OptEquiv R none none
  | some {a b : FSNode} : R a b → OptEquiv R (some a) (some b)

/-- Order-irrelevant equality of trees: files must agree exactly, folders
must agree on the metadata and have pointwise-equivalent lookups. -/
inductive NodeEquiv : FSNode → FSNode → Prop where
  | file (e : String) (s : Nat) (c : Option String) (m : RecycleMeta) :
      NodeEquiv (.file e s c m) (.file e s c m)
  | folder (cs cs' : List (String × FSNode)) (m : RecycleMeta)
      (h : ∀ k, OptEquiv NodeEquiv (lookupChild cs k) (lookupChild cs' k)) :
      NodeEquiv (.folder cs m) (.folder cs' m)

theorem sizeOf_of_lookupChild {cs : List (String × FSNode)} {k : String} {c : FSNode}
    (h : lookupChild cs k = some c) : sizeOf c < sizeOf cs := by
  induction cs with
  | nil => simp [lookupChild] at h
  | cons p rest ih =>
      obtain ⟨k', v⟩ := p
      by_cases hk : k' = k
      · simp [lookupChild, hk] at h
        subst h
        simp
        omega
      · simp [lookupChild, hk] at h
        have := ih h
        simp
        omega

theorem nodeEquiv_refl_aux : ∀ (n : Nat) (t : FSNode), sizeOf t ≤ n → NodeEquiv t t := by
  intro n
  induction n with
  | zero =>
      intro t ht
      cases t <;> simp at ht
  | succ n ih =>
      intro t ht
      cases t with
      | file e s c m => exact .file e s c m
      | folder cs m =>
          refine .folder cs cs m (fun k => ?_)
          cases hc : lookupChild cs k with
          | none => exact .none
          | some c =>
              refine .some (ih c ?_)
              have h1 := sizeOf_of_lookupChild hc
              simp at ht
              omega

/-- `NodeEquiv` is reflexive. -/
theorem nodeEquiv_refl (t : FSNode) : NodeEquiv t t :=
  nodeEquiv_refl_aux (sizeOf t) t (Nat.le_refl _)

/-! ## Association-list lemmas -/

theorem lookupChild_setKey_self (cs : List (String × FSNode)) (k : String) (v : FSNode) :
    lookupChild (setKey cs k v) k = some v := by
  induction cs with
  | nil => simp [setKey, lookupChild]
  | cons p rest ih =>
      obtain ⟨a, w⟩ := p
      by_cases ha : a = k <;> simp [setKey, lookupChild, ha, ih]

theorem lookupChild_setKey_ne (cs : List (String × FSNode)) (k q : String) (v : FSNode)
    (h : q ≠ k) : lookupChild (setKey cs k v) q = lookupChild cs q := by
  have hkq : k ≠ q := Ne.symm h
  induction cs with
  | nil => simp [setKey, lookupChild, hkq]
  | cons p rest ih =>
      obtain ⟨a, w⟩ := p
      by_cases ha : a = k
      · subst ha
        simp [setKey, lookupChild, hkq]
      · by_cases hq : a = q
        · subst hq
          simp [setKey, lookupChild, ha]
        · simp [setKey, lookupChild, ha, hq, ih]

theorem lookupChild_delKey_self (cs : List (String × FSNode)) (k : String) :
    lookupChild (delKey cs k) k = none := by
  induction cs with
  | nil => simp [delKey, lookupChild]
  | cons p rest ih =>
      obtain ⟨a, w⟩ := p
      by_cases ha : a = k <;> simp [delKey, lookupChild, ha, ih]

theorem lookupChild_delKey_ne (cs : List (String × FSNode)) (k q : String) (h : q ≠ k) :
    lookupChild (delKey cs k) q = lookupChild cs q := by
  have hkq : k ≠ q := Ne.symm h
  induction cs with
  | nil => simp [delKey, lookupChild]
  | cons p rest ih =>
      obtain ⟨a, w⟩ := p
      by_cases ha : a = k
      · subst ha
        simp [delKey, lookupChild, hkq, ih]
      · by_cases hq : a = q
        · subst hq
          simp [delKey, lookupChild, ha]
        · simp [delKey, lookupChild, ha, hq, ih]

theorem lookupChild_replaceChild_self (cs : List (String × FSNode)) (k : String)
    (g : FSNode → FSNode) :
    lookupChild (replaceChild k g cs) k = (lookupChild cs k).map g := by
  induction cs with
  | nil => simp [replaceChild, lookupChild]
  | cons p rest ih =>
      obtain ⟨a, w⟩ := p
      by_cases ha : a = k <;> simp [replaceChild, lookupChild, ha, ih]

theorem lookupChild_replaceChild_ne (cs : List (String × FSNode)) (k q : String)
    (g : FSNode → FSNode) (h : q ≠ k) :
    lookupChild (replaceChild k g cs) q = lookupChild cs q := by
  have hkq : k ≠ q := Ne.symm h
  induction cs with
  | nil => simp [replaceChild, lookupChild]
  | cons p rest ih =>
      obtain ⟨a, w⟩ := p
      by_cases ha : a = k
      · subst ha
        simp [replaceChild, lookupChild, hkq]
      · by_cases hq : a = q
        · subst hq
          simp [replaceChild, lookupChild, ha]
        · simp [replaceChild, lookupChild, ha, hq, ih]

theorem setKey_of_lookup_none (cs : List (String × FSNode)) (k : String) (v : FSNode)
    (h : lookupChild cs k = none) : setKey cs k v = cs ++ [(k, v)] := by
  induction cs with
  | nil => simp [setKey]
  | cons p rest ih =>
      obtain ⟨a, w⟩ := p
      by_cases ha : a = k
      · simp [lookupChild, ha] at h
      · simp [lookupChild, ha] at h
        simp [setKey, ha, ih h]

theorem delKey_of_lookup_none (cs : List (String × FSNode)) (k : String)
    (h : lookupChild cs k = none) : delKey cs k = cs := by
  induction cs with
  | nil => simp [delKey]
  | cons p rest ih =>
      obtain ⟨a, w⟩ := p
      by_cases ha : a = k
      · simp [lookupChild, ha] at h
      · simp [lookupChild, ha] at h
        simp [delKey, ha, ih h]

theorem delKey_append (cs ds : List (String × FSNode)) (k : String) :
    delKey (cs ++ ds) k = delKey cs k ++ delKey ds k := by
  induction cs with
  | nil => simp [delKey]
  | cons p rest ih =>
      obtain ⟨a, w⟩ := p
      by_cases ha : a = k <;> simp [delKey, ha, ih]

theorem replaceChild_of_lookup_none (cs : List (String × FSNode)) (k : String)
    (g : FSNode → FSNode) (h : lookupChild cs k = none) : replaceChild k g cs = cs := by
  induction cs with
  | nil => simp [replaceChild]
  | cons p rest ih =>
      obtain ⟨a, w⟩ := p
      by_cases ha : a = k
      · simp [lookupChild, ha] at h
      · simp [lookupChild, ha] at h
        simp [replaceChild, ha, ih h]

theorem replaceChild_of_fix (cs : List (String × FSNode)) (k : String)
    (g : FSNode → FSNode) (h : ∀ c, lookupChild cs k = some c → g c = c) :
    replaceChild k g cs = cs := by
  induction cs with
  | nil => simp [replaceChild]
  | cons p rest ih =>
      obtain ⟨a, w⟩ := p
      by_cases ha : a = k
      · subst ha
        simp [lookupChild] at h
        simp [replaceChild, h]
      · simp [lookupChild, ha] at h
        simp [replaceChild, ha, ih h]

theorem replaceChild_congr (cs : List (String × FSNode)) (k : String)
    (g1 g2 : FSNode → FSNode) (h : ∀ v, g1 v = g2 v) :
    replaceChild k g1 cs = replaceChild k g2 cs := by
  induction cs with
  | nil => simp [replaceChild]
  | cons p rest ih =>
      obtain ⟨a, w⟩ := p
      by_cases ha : a = k <;> simp [replaceChild, ha, h, ih]

theorem replaceChild_replaceChild (cs : List (String × FSNode)) (k : String)
    (g1 g2 : FSNode → FSNode) :
    replaceChild k g1 (replaceChild k g2 cs) = replaceChild k (fun v => g1 (g2 v)) cs := by
  induction cs with
  | nil => simp [replaceChild]
  | cons p rest ih =>
      obtain ⟨a, w⟩ := p
      by_cases ha : a = k <;> simp [replaceChild, ha, ih]

theorem replaceChild_comm (cs : List (String × FSNode)) (a b : String)
    (g1 g2 : FSNode → FSNode) (h : a ≠ b) :
    replaceChild a g1 (replaceChild b g2 cs) = replaceChild b g2 (replaceChild a g1 cs) := by
  have hba : ¬ b = a := fun e => h e.symm
  induction cs with
  | nil => simp [replaceChild]
  | cons p rest ih =>
      obtain ⟨k, w⟩ := p
      by_cases hb : k = b
      · subst hb
        simp [replaceChild, hba]
      · by_cases hk : k = a
        · subst hk
          simp [replaceChild, h, hb]
        · simp [replaceChild, hb, hk, ih]

theorem replaceChild_setKey_ne (cs : List (String × FSNode)) (a b : String)
    (g : FSNode → FSNode) (v : FSNode) (h : a ≠ b) :
    replaceChild a g (setKey cs b v) = setKey (replaceChild a g cs) b v := by
  have hba : ¬ b = a := fun e => h e.symm
  induction cs with
  | nil => simp [setKey, replaceChild, hba]
  | cons p rest ih =>
      obtain ⟨k, w⟩ := p
      by_cases hb : k = b
      · subst hb
        simp [setKey, replaceChild, hba]
      · by_cases hk : k = a
        · subst hk
          simp [setKey, replaceChild, h, hb]
        · simp [setKey, replaceChild, hb, hk, ih]

theorem replaceChild_delKey_ne (cs : List (String × FSNode)) (a b : String)
    (g : FSNode → FSNode) (h : a ≠ b) :
    replaceChild a g (delKey cs b) = delKey (replaceChild a g cs) b := by
  have hba : ¬ b = a := fun e => h e.symm
  induction cs with
  | nil => simp [delKey, replaceChild]
  | cons p rest ih =>
      obtain ⟨k, w⟩ := p
      by_cases hb : k = b
      · subst hb
        simp [delKey, replaceChild, hba, ih]
      · by_cases hk : k = a
        · subst hk
          simp [delKey, replaceChild, h, hb]
        · simp [delKey, replaceChild, hb, hk, ih]

theorem setKey_delKey_ne (cs : List (String × FSNode)) (a b : String) (v : FSNode)
    (h : a ≠ b) : setKey (delKey cs b) a v = delKey (setKey cs a v) b := by
  have hba : ¬ b = a := fun e => h e.symm
  have hab : ¬ a = b := h
  induction cs with
  | nil => simp [setKey, delKey, hab]
  | cons p rest ih =>
      obtain ⟨k, w⟩ := p
      by_cases hb : k = b
      · subst hb
        simp [setKey, delKey, hba, ih]
      · by_cases hk : k = a
        · subst hk
          simp [setKey, delKey, hab, hb]
        · simp [setKey, delKey, hb, hk, ih]

theorem updateAt_nil (f : List (String × FSNode) → List (String × FSNode))
    (cs : List (String × FSNode)) (m : RecycleMeta) :
    updateAt [] f (.folder cs m) = .folder (f cs) m := rfl

theorem updateAt_cons (a : String) (ps : List String)
    (f : List (String × FSNode) → List (String × FSNode))
    (cs : List (String × FSNode)) (m : RecycleMeta) :
    updateAt (a :: ps) f (.folder cs m) = .folder (replaceChild a (updateAt ps f) cs) m := rfl

theorem updateAt_file (p : List String) (f : List (String × FSNode) → List (String × FSNode))
    (e : String) (s : Nat) (c : Option String) (m : RecycleMeta) :
    updateAt p f (.file e s c m) = .file e s c m := by
  cases p <;> rfl

theorem getNodeByPath_nil (t : FSNode) : getNodeByPath t [] = some t := by
  cases t <;> rfl

/-- Composition of two functional updates along the same path. -/
theorem updateAt_updateAt (p : List String)
    (f g : List (String × FSNode) → List (String × FSNode)) (t : FSNode) :
    updateAt p f (updateAt p g t) = updateAt p (fun cs => f (g cs)) t := by
  induction p generalizing t with
  | nil => cases t <;> rfl
  | cons a ps ih =>
      cases t with
      | file e s c m => rfl
      | folder cs m =>
          rw [updateAt_cons, updateAt_cons, updateAt_cons, replaceChild_replaceChild]
          exact congrArg (fun x => FSNode.folder x m)
            (replaceChild_congr _ _ _ _ (fun v => ih v))

/-- Updates along paths that diverge at their first segment commute. -/
theorem updateAt_comm_head (a b : String) (ps qs : List String)
    (f g : List (String × FSNode) → List (String × FSNode)) (t : FSNode) (h : a ≠ b) :
    updateAt (a :: ps) f (updateAt (b :: qs) g t) =
      updateAt (b :: qs) g (updateAt (a :: ps) f t) := by
  cases t with
  | file e s c m => rfl
  | folder cs m =>
      rw [updateAt_cons, updateAt_cons, updateAt_cons, updateAt_cons,
        replaceChild_comm _ _ _ _ _ h]

/-- Walking an appended path is walking the two parts in turn. -/
theorem getNodeByPath_append (t : FSNode) (p q : List String) :
    getNodeByPath t (p ++ q) = (getNodeByPath t p).bind (fun n => getNodeByPath n q) := by
  induction p generalizing t with
  | nil => simp [getNodeByPath]
  | cons a ps ih =>
      cases t with
      | file e s c m => simp [getNodeByPath]
      | folder cs m =>
          simp only [List.cons_append, getNodeByPath]
          cases lookupChild cs a with
          | none => simp
          | some c => simp [ih]

/-- Resolving the updated path after a functional update at that path:
the children record of the target folder is transformed by `f` and the walk
continues below it. -/
theorem getNodeByPath_updateAt_append (t : FSNode) (p q : List String)
    (f : List (String × FSNode) → List (String × FSNode))
    (cs : List (String × FSNode)) (m : RecycleMeta)
    (h : getNodeByPath t p = some (.folder cs m)) :
    getNodeByPath (updateAt p f t) (p ++ q) = getNodeByPath (.folder (f cs) m) q := by
  induction p generalizing t with
  | nil =>
      simp [getNodeByPath] at h
      subst h
      rfl
  | cons a ps ih =>
      cases t with
      | file e s c m0 => simp [getNodeByPath] at h
      | folder cs0 m0 =>
          simp only [getNodeByPath] at h
          cases hc : lookupChild cs0 a with
          | none => simp [hc] at h
          | some c =>
              rw [hc] at h
              rw [updateAt_cons]
              simp only [List.cons_append, getNodeByPath,
                lookupChild_replaceChild_self, hc, Option.map_some]
              exact ih c h

/-- A functional update along a path whose first segment differs does not
change what a walk observes. -/
theorem getNodeByPath_updateAt_head_ne (t : FSNode) (a b : String) (ps qs : List String)
    (f : List (String × FSNode) → List (String × FSNode)) (h : b ≠ a) :
    getNodeByPath (updateAt (a :: ps) f t) (b :: qs) = getNodeByPath t (b :: qs) := by
  cases t with
  | file e s c m => rfl
  | folder cs m =>
      rw [updateAt_cons]
      simp only [getNodeByPath, lookupChild_replaceChild_ne _ _ _ _ h]

/-! ## Claims about `createFile`, `getNodeByPath`, `emptyRecycleBin` -/

/-- **C4.**  For every tree, path, filename and content string,
`createFile` returns false and leaves the tree unchanged when the path
does not resolve to a folder node; otherwise it returns true and inserts
or overwrites a `txt` file child under `filename` whose size is the
content's length, so that resolving the extended path afterwards yields
that file node. -/
theorem claim_createFile_correct (root : FSNode) (path : List String)
    (filename content : String) :
    ((∀ cs m, getNodeByPath root path ≠ some (.folder cs m)) →
        createFile root path filename content = (false, root)) ∧
    (∀ cs m, getNodeByPath root path = some (.folder cs m) →
        (createFile root path filename content).1 = true ∧
        getNodeByPath (createFile root path filename content).2 (path ++ [filename]) =
          some (.file "txt" content.length (some content) noMeta)) := by
  constructor
  · intro h
    unfold createFile
    cases hg : getNodeByPath root path with
    | none => rfl
    | some n =>
        cases n with
        | file e s c m => rfl
        | folder cs m => exact absurd hg (h cs m)
  · intro cs m hg
    unfold createFile
    rw [hg]
    refine ⟨rfl, ?_⟩
    simp only
    rw [getNodeByPath_updateAt_append root path [filename] _ cs m hg]
    simp [getNodeByPath, lookupChild_setKey_self]

/-- Witness for C4 at the spec's example: creating `a.txt` with content
`"hello"` in an existing folder and resolving it yields a file of size 5
with that content. -/
theorem claim_createFile_correct_witness :
    (createFile (.folder [("home", .folder [] noMeta)] noMeta) ["home"] "a.txt" "hello").1 = true ∧
    getNodeByPath (createFile (.folder [("home", .folder [] noMeta)] noMeta)
        ["home"] "a.txt" "hello").2 ["home", "a.txt"] =
      some (.file "txt" 5 (some "hello") noMeta) := by
  have h := (claim_createFile_correct (.folder [("home", .folder [] noMeta)] noMeta)
    ["home"] "a.txt" "hello").2 [] noMeta (by rfl)
  simpa using h

/-- **C10.**  Every successful `createFile` call stores the literal
extension `'txt'` on the created node, regardless of the extension the
filename argument suggests. -/
theorem claim_createFile_ext_always_txt (root : FSNode) (path : List String)
    (filename content : String)
    (h : (createFile root path filename content).1 = true) :
    getNodeByPath (createFile root path filename content).2 (path ++ [filename]) =
      some (.file "txt" content.length (some content) noMeta) := by
  cases hg : getNodeByPath root path with
  | none => simp [createFile, hg] at h
  | some n =>
      cases n with
      | file e s c m => simp [createFile, hg] at h
      | folder cs m =>
          simp only [createFile, hg]
          rw [getNodeByPath_updateAt_append root path [filename] _ cs m hg]
          simp [getNodeByPath, lookupChild_setKey_self]

/-- Witness for C10: creating `a.jpg` still yields extension `txt`. -/
theorem claim_createFile_ext_always_txt_witness :
    getNodeByPath (createFile (.folder [] noMeta) [] "a.jpg" "xy").2 ["a.jpg"] =
      some (.file "txt" 2 (some "xy") noMeta) := by
  have h := claim_createFile_ext_always_txt (.folder [] noMeta) [] "a.jpg" "xy" (by rfl)
  simpa using h

/-- **C5.**  `getNodeByPath` applied to the empty path returns the root
for every tree, and a path resolves to a node exactly when each traversed
node is a folder containing the next segment (the relation `ResolvesTo`),
`none` being returned otherwise. -/
theorem claim_resolvePath_spec (t : FSNode) :
    getNodeByPath t [] = some t ∧
    ∀ (path : List String) (r : FSNode),
      getNodeByPath t path = some r ↔ ResolvesTo t path r := by
  refine ⟨getNodeByPath_nil t, ?_⟩
  intro path
  induction path generalizing t with
  | nil =>
      intro r
      constructor
      · intro h
        rw [getNodeByPath_nil] at h
        cases h
        exact .nil t
      · intro h
        cases h
        exact getNodeByPath_nil t
  | cons a ps ih =>
      intro r
      constructor
      · intro h
        cases t with
        | file e s c m => simp [getNodeByPath] at h
        | folder cs m =>
            simp only [getNodeByPath] at h
            cases hc : lookupChild cs a with
            | none => rw [hc] at h; simp at h
            | some c =>
                rw [hc] at h
                exact .cons hc ((ih c r).1 h)
      · intro h
        cases h with
        | cons hc hrest =>
            simp only [getNodeByPath, hc]
            exact (ih _ r).2 hrest

/-- **C8.**  `emptyRecycleBin` fails and leaves the tree unchanged (in
particular creates no bin) when the root has no `"Recycle Bin"` child;
when such a child exists it succeeds, the bin becomes an empty folder, and
every other root child is untouched. -/
theorem claim_emptyRecycleBin_spec (rootCs : List (String × FSNode)) (m : RecycleMeta) :
    (lookupChild rootCs "Recycle Bin" = none →
        emptyRecycleBin (.folder rootCs m) = (false, .folder rootCs m)) ∧
    (∀ b, lookupChild rootCs "Recycle Bin" = some b →
        (emptyRecycleBin (.folder rootCs m)).1 = true ∧
        lookupChild (emptyRecycleBin (.folder rootCs m)).2.childrenOf "Recycle Bin" =
          some (.folder [] noMeta) ∧
        ∀ k, k ≠ "Recycle Bin" →
          lookupChild (emptyRecycleBin (.folder rootCs m)).2.childrenOf k =
            lookupChild rootCs k) := by
  constructor
  · intro h
    simp [emptyRecycleBin, h]
  · intro b hb
    simp only [emptyRecycleBin, hb]
    refine ⟨trivial, ?_, ?_⟩
    · simp [FSNode.childrenOf, lookupChild_setKey_self]
    · intro k hk
      simp [FSNode.childrenOf, lookupChild_setKey_ne _ _ _ _ hk]

/-- Witness for C8: emptying a bin holding one entry succeeds and leaves
an empty bin folder; a sibling child is untouched. -/
theorem claim_emptyRecycleBin_spec_witness :
    (emptyRecycleBin (.folder [("Recycle Bin", .folder [("x", .file "txt" 1 none noMeta)] noMeta),
        ("keep", .file "txt" 2 none noMeta)] noMeta)).1 = true ∧
    lookupChild (emptyRecycleBin (.folder [("Recycle Bin", .folder [("x", .file "txt" 1 none noMeta)] noMeta),
        ("keep", .file "txt" 2 none noMeta)] noMeta)).2.childrenOf "Recycle Bin" =
      some (.folder [] noMeta) ∧
    lookupChild (emptyRecycleBin (.folder [("Recycle Bin", .folder [("x", .file "txt" 1 none noMeta)] noMeta),
        ("keep", .file "txt" 2 none noMeta)] noMeta)).2.childrenOf "keep" =
      some (.file "txt" 2 none noMeta) := by
  have h := (claim_emptyRecycleBin_spec
    [("Recycle Bin", .folder [("x", .file "txt" 1 none noMeta)] noMeta),
     ("keep", .file "txt" 2 none noMeta)] noMeta).2
    (.folder [("x", .file "txt" 1 none noMeta)] noMeta) (by rfl)
  refine ⟨h.1, h.2.1, ?_⟩
  have h2 := h.2.2 "keep" (by decide)
  rw [h2]
  rfl

/-! ## Claims about the window manager -/

/-- **C6.**  `moveWindow` keeps every window whose id differs untouched
(in both directions of membership) and stores on the addressed window the
proposed position clamped into `[0, max 0 (viewportW - 344)]` on the x
axis and `[0, max 0 (viewportH - 248)]` on the y axis. -/
theorem claim_moveWindow_clamps (ws : List WinInstance) (vw vh : Int) (id : String)
    (pos : Vec2) :
    (∀ w ∈ ws, w.id ≠ id → w ∈ moveWindow ws vw vh id pos) ∧
    (∀ w ∈ moveWindow ws vw vh id pos, w.id ≠ id → w ∈ ws) ∧
    (∀ w ∈ moveWindow ws vw vh id pos, w.id = id →
        0 ≤ w.position.x ∧ w.position.x ≤ max 0 (vw - 320 - 24) ∧
        0 ≤ w.position.y ∧ w.position.y ≤ max 0 (vh - 200 - 48)) := by
  refine ⟨?_, ?_, ?_⟩
  · intro w hw hne
    have : (if w.id = id then
        { w with position := ⟨min (max 0 pos.x) (max 0 (vw - 320 - 24)),
                             min (max 0 pos.y) (max 0 (vh - 200 - 48))⟩ }
      else w) = w := by simp [hne]
    rw [← this]
    exact List.mem_map_of_mem _ hw
  · intro w hw hne
    simp only [moveWindow, List.mem_map] at hw
    obtain ⟨v, hv, hfv⟩ := hw
    by_cases hid : v.id = id
    · rw [if_pos hid] at hfv
      subst hfv
      exact absurd hid hne
    · rw [if_neg hid] at hfv
      subst hfv
      exact hv
  · intro w hw hid
    simp only [moveWindow, List.mem_map] at hw
    obtain ⟨v, hv, hfv⟩ := hw
    by_cases hvid : v.id = id
    · rw [if_pos hvid] at hfv
      subst hfv
      refine ⟨?_, ?_, ?_, ?_⟩
      · exact le_min (le_max_left 0 pos.x) (le_max_left 0 _)
      · exact min_le_right _ _
      · exact le_min (le_max_left 0 pos.y) (le_max_left 0 _)
      · exact min_le_right _ _
    · rw [if_neg hvid] at hfv
      subst hfv
      exact absurd hid hvid

/-- Witness for C6 at the spec's example: a window at (100, 100) on an
800 × 600 viewport moved to (5000, -50) lands at (456, 0), inside
`[0, 456] × [0, 352]`. -/
theorem claim_moveWindow_clamps_witness :
    (⟨"w1", "Notepad", .notepad, ⟨456, 0⟩, none, false, 11, none⟩ : WinInstance) ∈
      moveWindow [⟨"w1", "Notepad", .notepad, ⟨100, 100⟩, none, false, 11, none⟩]
        800 600 "w1" ⟨5000, -50⟩ ∧
    (0 : Int) ≤ 456 ∧ (456 : Int) ≤ max 0 (800 - 320 - 24) ∧
    (0 : Int) ≤ 0 ∧ (0 : Int) ≤ max 0 (600 - 200 - 48) := by
  have hmem : (⟨"w1", "Notepad", .notepad, ⟨456, 0⟩, none, false, 11, none⟩ : WinInstance) ∈
      moveWindow [⟨"w1", "Notepad", .notepad, ⟨100, 100⟩, none, false, 11, none⟩]
        800 600 "w1" ⟨5000, -50⟩ := by
    simp [moveWindow]
  have h := (claim_moveWindow_clamps
    [⟨"w1", "Notepad", .notepad, ⟨100, 100⟩, none, false, 11, none⟩]
    800 600 "w1" ⟨5000, -50⟩).2.2 _ hmem rfl
  exact ⟨hmem, h.1, by simp, h.2.2.1, by simp⟩

/-! ## Claim about error handling of the file-system operations -/

/-- **C2 (amended).**  Provided the root's `"Recycle Bin"` child, if
present, is not a file, none of the five file-system operations throws,
and each of them either succeeds or returns false with the tree unchanged
(`moveToRecycleBin` with a file-valued `"Recycle Bin"` root child throws,
see the counterexample). -/
theorem claim_ops_error_handling (root : FSNode) (path itemPath : List String)
    (filename content itemName ts1 ts2 rn : String)
    (hbin : ∀ e sz c mm, lookupChild root.childrenOf "Recycle Bin" ≠ some (.file e sz c mm)) :
    ((createFile root path filename content).1 = false →
        (createFile root path filename content).2 = root) ∧
    ((updateFile root path filename content).1 = false →
        (updateFile root path filename content).2 = root) ∧
    (moveToRecycleBin root itemPath itemName ts1 ts2 ≠ .thrown) ∧
    (∀ t, moveToRecycleBin root itemPath itemName ts1 ts2 = .ret false t → t = root) ∧
    ((restoreFromRecycleBin root rn).1 = false → (restoreFromRecycleBin root rn).2 = root) ∧
    ((emptyRecycleBin root).1 = false → (emptyRecycleBin root).2 = root) := by
  refine ⟨?_, ?_, ?_, ?_, ?_, ?_⟩
  · intro h
    cases hg : getNodeByPath root path with
    | none => simp [createFile, hg]
    | some n =>
        cases n with
        | file e s c m => simp [createFile, hg]
        | folder cs m => simp [createFile, hg] at h
  · intro h
    cases hg : getNodeByPath root path with
    | none => simp [updateFile, hg]
    | some n =>
        cases n with
        | file e s c m => simp [updateFile, hg]
        | folder cs m =>
            cases hc : lookupChild cs filename with
            | none => simp [updateFile, hg, hc]
            | some u =>
                cases u with
                | file e s c m2 => simp [updateFile, hg, hc] at h
                | folder cs2 m2 => simp [updateFile, hg, hc]
  · cases hg : getNodeByPath root itemPath with
    | none => simp [moveToRecycleBin, hg]
    | some n =>
        cases n with
        | file e s c m => simp [moveToRecycleBin, hg]
        | folder srcCs srcM =>
            cases hc : lookupChild srcCs itemName with
            | none => simp [moveToRecycleBin, hg, hc]
            | some item =>
                cases root with
                | file e s c m => simp [moveToRecycleBin, hg, hc]
                | folder rootCs rootMeta =>
                    cases hb : lookupChild rootCs "Recycle Bin" with
                    | none => simp [moveToRecycleBin, hg, hc, hb]
                    | some b =>
                        cases b with
                        | folder bcs bm => simp [moveToRecycleBin, hg, hc, hb]
                        | file e sz c mm =>
                            exact absurd hb (by simpa [FSNode.childrenOf] using hbin e sz c mm)
  · intro t ht
    cases hg : getNodeByPath root itemPath with
    | none => simp [moveToRecycleBin, hg] at ht; exact ht.symm
    | some n =>
        cases n with
        | file e s c m => simp [moveToRecycleBin, hg] at ht; exact ht.symm
        | folder srcCs srcM =>
            cases hc : lookupChild srcCs itemName with
            | none => simp [moveToRecycleBin, hg, hc] at ht; exact ht.symm
            | some item =>
                cases root with
                | file e s c m =>
                    simp [moveToRecycleBin, hg, hc] at ht
                    exact ht.symm
                | folder rootCs rootMeta =>
                    cases hb : lookupChild rootCs "Recycle Bin" with
                    | none => simp [moveToRecycleBin, hg, hc, hb] at ht
                    | some b =>
                        cases b with
                        | folder bcs bm => simp [moveToRecycleBin, hg, hc, hb] at ht
                        | file e sz c mm => simp [moveToRecycleBin, hg, hc, hb] at ht
  · intro h
    cases root with
    | file e s c m => simp [restoreFromRecycleBin]
    | folder rootCs rootMeta =>
        cases hb : lookupChild rootCs "Recycle Bin" with
        | none => simp [restoreFromRecycleBin, hb]
        | some b =>
            cases b with
            | file e sz c mm => simp [restoreFromRecycleBin, hb]
            | folder bcs bm =>
                cases hc : lookupChild bcs rn with
                | none => simp [restoreFromRecycleBin, hb, hc]
                | some item =>
                    cases hop : recOriginalPath item with
                    | nil =>
                        by_cases hon : recOriginalName item rn = "Recycle Bin" <;>
                          simp [restoreFromRecycleBin, hb, hc, hop, hon] at h
                    | cons a ps =>
                        cases hd : getNodeByPath (.folder rootCs rootMeta) (a :: ps) with
                        | none => simp [restoreFromRecycleBin, hb, hc, hop, hd]
                        | some d =>
                            cases d with
                            | file e2 s2 c2 m2 =>
                                simp [restoreFromRecycleBin, hb, hc, hop, hd]
                            | folder dcs dm =>
                                simp [restoreFromRecycleBin, hb, hc, hop, hd] at h
  · intro h
    cases root with
    | file e s c m => simp [emptyRecycleBin]
    | folder rootCs rootMeta =>
        cases hb : lookupChild rootCs "Recycle Bin" with
        | none => simp [emptyRecycleBin, hb]
        | some b => simp [emptyRecycleBin, hb] at h

/-- Witness for C2: on an empty root (whose bin child is absent, hence not
a file) `moveToRecycleBin` does not throw and a failing restore leaves the
tree unchanged. -/
theorem claim_ops_error_handling_witness :
    moveToRecycleBin (.folder [] noMeta) [] "a" "T" "D" ≠ .thrown ∧
    (restoreFromRecycleBin (.folder [] noMeta) "x").2 = .folder [] noMeta := by
  have h := claim_ops_error_handling (.folder [] noMeta) [] [] "f" "c" "a" "T" "D" "x"
    (by intro e sz c mm; simp [FSNode.childrenOf, lookupChild])
  exact ⟨h.2.2.1, h.2.2.2.2.1 (by rfl)⟩

/-- Counterexample for C2 as stated: when the root has a *file* named
`"Recycle Bin"`, moving an existing item throws a `TypeError` instead of
returning a flag. -/
theorem claim_ops_error_handling_counterexample :
    moveToRecycleBin
      (.folder [("Recycle Bin", .file "txt" 1 none noMeta),
                ("a", .file "txt" 2 none noMeta)] noMeta)
      [] "a" "T" "D" = .thrown := by
  rfl

/-! ## Claim about loading persisted state -/

/-- **C9 (amended).**  `loadFileSystem` is total (malformed state is never
surfaced as an error) and returns the built-in default tree exactly when
there is no browser window, the slot is absent or empty, or `JSON.parse`
throws; every *successfully parsed* value — even one that is not the
expected node shape — is returned as-is, with no validation. -/
theorem claim_loadFileSystem_spec (hw : Bool) (slot : Option String)
    (parse : String → Option JsonVal) :
    (loadFileSystem hw slot parse = .defaultTree ↔
      hw = false ∨ slot = none ∨ slot = some "" ∨
      ∃ s, slot = some s ∧ parse s = none) ∧
    (∀ j, loadFileSystem hw slot parse = .parsed j ↔
      hw = true ∧ ∃ s, slot = some s ∧ s ≠ "" ∧ parse s = some j) := by
  cases hw with
  | false => simp [loadFileSystem]
  | true =>
      cases slot with
      | none => simp [loadFileSystem]
      | some s =>
          by_cases hs : s = ""
          · subst hs
            simp [loadFileSystem]
          · cases hp : parse s with
            | none => simp [loadFileSystem, hs, hp]
            | some j0 =>
                constructor
                · simp [loadFileSystem, hs, hp]
                · intro j
                  simp [loadFileSystem, hs, hp, eq_comm]

/-- Counterexample for C9 as stated: the stored blob `"x"` (a valid JSON
string, not the expected node shape) is returned as-is by the load instead
of being replaced with the default tree. -/
theorem claim_loadFileSystem_counterexample :
    loadFileSystem true (some "\"x\"")
        (fun s => if s = "\"x\"" then some (.str "x") else none) =
      .parsed (.str "x") ∧
    ¬ IsNodeShapeJson (.str "x") ∧
    loadFileSystem true (some "\"x\"")
        (fun s => if s = "\"x\"" then some (.str "x") else none) ≠
      .defaultTree := by
  refine ⟨rfl, ?_, ?_⟩
  · intro h
    cases h
  · intro h
    simp [loadFileSystem] at h

/-! ## Decimal rendering of `Date.now()` values

`Nat.repr` is `(Nat.toDigits 10 n).asString`; the lemmas below show that
the decimal digits contain no dash and determine the number, which makes
the three dash-separated segments of a window identifier recoverable. -/

theorem digitChar_eq_star (n : Nat) (h : 16 ≤ n) : Nat.digitChar n = '*' := by
  unfold Nat.digitChar
  simp [show n ≠ 0 by omega, show n ≠ 1 by omega, show n ≠ 2 by omega,
        show n ≠ 3 by omega, show n ≠ 4 by omega, show n ≠ 5 by omega,
        show n ≠ 6 by omega, show n ≠ 7 by omega, show n ≠ 8 by omega,
        show n ≠ 9 by omega, show n ≠ 10 by omega, show n ≠ 11 by omega,
        show n ≠ 12 by omega, show n ≠ 13 by omega, show n ≠ 14 by omega,
        show n ≠ 15 by omega]

theorem digitChar_ne_dash (n : Nat) : Nat.digitChar n ≠ '-' := by
  by_cases h : n < 16
  · interval_cases n <;> decide
  · rw [digitChar_eq_star n (by omega)]
    decide

theorem digitChar_inj_of_lt (a b : Nat) (ha : a < 10) (hb : b < 10)
    (h : Nat.digitChar a = Nat.digitChar b) : a = b := by
  interval_cases a <;> interval_cases b <;> revert h <;> decide

theorem toDigitsCore_eq_natDigits : ∀ (fuel n : Nat) (ds : List Char), n < fuel →
    Nat.toDigitsCore 10 fuel n ds = natDigits n ++ ds := by
  intro fuel
  induction fuel with
  | zero => intro n ds h; omega
  | succ fuel ih =>
      intro n ds h
      by_cases h10 : n / 10 = 0
      · have hn : n < 10 := by omega
        rw [natDigits]
        simp [Nat.toDigitsCore, h10, hn, Nat.mod_eq_of_lt hn]
      · have hn : ¬ n < 10 := by omega
        rw [natDigits]
        simp only [Nat.toDigitsCore, h10, if_false, hn, dite_false]
        rw [ih (n / 10) _ (by omega)]
        simp

theorem repr_data (n : Nat) : (Nat.repr n).data = natDigits n := by
  unfold Nat.repr Nat.toDigits
  rw [toDigitsCore_eq_natDigits (n + 1) n [] (Nat.lt_succ_self n)]
  simp [List.asString]

theorem natDigits_lt (n : Nat) (h : n < 10) : natDigits n = [Nat.digitChar n] := by
  rw [natDigits]
  simp [h]

theorem natDigits_ge (n : Nat) (h : ¬ n < 10) :
    natDigits n = natDigits (n / 10) ++ [Nat.digitChar (n % 10)] := by
  rw [natDigits]
  simp [h]

theorem natDigits_ne_nil (n : Nat) : natDigits n ≠ [] := by
  by_cases h : n < 10
  · simp [natDigits_lt n h]
  · simp [natDigits_ge n h]

theorem natDigits_ne_dash (n : Nat) : ∀ c ∈ natDigits n, c ≠ '-' := by
  induction n using Nat.strong_induction_on with
  | h n ih =>
      by_cases h10 : n < 10
      · rw [natDigits_lt n h10]
        intro c hc
        simp at hc
        subst hc
        exact digitChar_ne_dash n
      · rw [natDigits_ge n h10]
        intro c hc
        rcases List.mem_append.1 hc with hc | hc
        · exact ih (n / 10) (Nat.div_lt_self (by omega) (by omega)) c hc
        · simp at hc
          subst hc
          exact digitChar_ne_dash (n % 10)

theorem natDigits_inj : ∀ (a : Nat), ∀ b, natDigits a = natDigits b → a = b := by
  intro a
  induction a using Nat.strong_induction_on with
  | h a ih =>
      intro b hab
      by_cases ha : a < 10 <;> by_cases hb : b < 10
      · rw [natDigits_lt a ha, natDigits_lt b hb] at hab
        injection hab with h1
        exact digitChar_inj_of_lt a b ha hb h1
      · rw [natDigits_lt a ha, natDigits_ge b hb] at hab
        rcases hnil : natDigits (b / 10) with _ | ⟨c, cs⟩
        · exact absurd hnil (natDigits_ne_nil _)
        · rw [hnil] at hab
          simp at hab
      · rw [natDigits_ge a ha, natDigits_lt b hb] at hab
        rcases hnil : natDigits (a / 10) with _ | ⟨c, cs⟩
        · exact absurd hnil (natDigits_ne_nil _)
        · rw [hnil] at hab
          simp at hab
      · rw [natDigits_ge a ha, natDigits_ge b hb] at hab
        obtain ⟨h1, h2⟩ := List.append_inj' hab rfl
        have hmod : a % 10 = b % 10 := by
          injection h2 with h3
          exact digitChar_inj_of_lt _ _ (Nat.mod_lt _ (by omega)) (Nat.mod_lt _ (by omega)) h3
        have hdiv : a / 10 = b / 10 :=
          ih (a / 10) (Nat.div_lt_self (by omega) (by omega)) (b / 10) h1
        omega

theorem repr_inj (a b : Nat) (h : Nat.repr a = Nat.repr b) : a = b := by
  apply natDigits_inj a b
  rw [← repr_data, ← repr_data, h]

theorem repr_ne_dash (n : Nat) : ∀ c ∈ (Nat.repr n).data, c ≠ '-' := by
  rw [repr_data]
  exact natDigits_ne_dash n

/-- Splitting a dash-separated concatenation is unambiguous when the part
before the dash is dash-free. -/
theorem append_dash_inj : ∀ (xs xs' ys ys' : List Char),
    (∀ c ∈ xs, c ≠ '-') → (∀ c ∈ xs', c ≠ '-') →
    xs ++ '-' :: ys = xs' ++ '-' :: ys' → xs = xs' ∧ ys = ys' := by
  intro xs
  induction xs with
  | nil =>
      intro xs' ys ys' hx hx' h
      cases xs' with
      | nil =>
          simp at h
          exact ⟨rfl, h⟩
      | cons c rest =>
          simp at h
          exact absurd h.1.symm (hx' c (by simp))
  | cons c rest ih =>
      intro xs' ys ys' hx hx' h
      cases xs' with
      | nil =>
          simp at h
          exact absurd h.1 (hx c (by simp))
      | cons c' rest' =>
          simp at h
          obtain ⟨hc, hrest⟩ := h
          subst hc
          obtain ⟨h1, h2⟩ := ih rest' ys ys'
            (fun d hd => hx d (List.mem_cons_of_mem _ hd))
            (fun d hd => hx' d (List.mem_cons_of_mem _ hd)) hrest
          exact ⟨by rw [h1], h2⟩

theorem windowTypeStr_inj (t t' : WindowType) (h : t.str = t'.str) : t = t' := by
  cases t <;> cases t' <;> revert h <;> decide

/-- A window identifier with a dash-free random suffix determines the
`(type, Date.now(), suffix)` triple it was built from. -/
theorem mkWindowId_inj (t t' : WindowType) (n n' : Nat) (r r' : String)
    (hr : dashFree r) (hr' : dashFree r')
    (h : mkWindowId t n r = mkWindowId t' n' r') : t = t' ∧ n = n' ∧ r = r' := by
  have hd : (mkWindowId t n r).data = (mkWindowId t' n' r').data := by rw [h]
  simp only [mkWindowId, String.data_append] at hd
  have hrev := congrArg List.reverse hd
  simp only [List.reverse_append] at hrev
  obtain ⟨hr1, hrest1⟩ := append_dash_inj (r.data.reverse) (r'.data.reverse) _ _
    (fun c hc => hr c (List.mem_reverse.1 hc))
    (fun c hc => hr' c (List.mem_reverse.1 hc))
    (by simpa using hrev)
  obtain ⟨hn1, ht1⟩ := append_dash_inj ((Nat.repr n).data.reverse) ((Nat.repr n').data.reverse) _ _
    (fun c hc => repr_ne_dash n c (List.mem_reverse.1 hc))
    (fun c hc => repr_ne_dash n' c (List.mem_reverse.1 hc))
    (by simpa using hrest1)
  refine ⟨?_, ?_, ?_⟩
  · exact windowTypeStr_inj t t' (String.ext (List.reverse_inj.1 ht1))
  · exact repr_inj n n' (String.ext (List.reverse_inj.1 hn1))
  · exact String.ext (List.reverse_inj.1 hr1)

/-! ## Session-state lemmas -/

theorem runSession_append (s : SessionState) (es1 es2 : List SessionEvent) :
    runSession s (es1 ++ es2) = runSession (runSession s es1) es2 := by
  induction es1 generalizing s with
  | nil => rfl
  | cons e rest ih => simp [runSession, ih]

/-- One step preserves the invariant that every open window's stacking
value is at most the counter. -/
theorem windows_z_le_counter_step (s : SessionState) (e : SessionEvent)
    (h : ∀ w ∈ s.windows, w.z ≤ s.counter) :
    ∀ w ∈ (stepSession s e).windows, w.z ≤ (stepSession s e).counter := by
  cases e with
  | openWin t p now rand rx ry =>
      intro w hw
      simp only [stepSession, openApp, List.mem_append, List.mem_singleton] at hw
      rcases hw with hw | hw
      · exact Nat.le_succ_of_le (h w hw)
      · subst hw
        exact Nat.le_refl _
  | focus id =>
      intro w hw
      simp only [stepSession, bringToFront, List.mem_map] at hw
      obtain ⟨v, hv, hfv⟩ := hw
      by_cases hid : v.id = id
      · rw [if_pos hid] at hfv
        subst hfv
        exact Nat.le_refl _
      · rw [if_neg hid] at hfv
        subst hfv
        exact Nat.le_succ_of_le (h v hv)
  | close id =>
      intro w hw
      simp only [stepSession, closeWindow, List.mem_filter] at hw
      exact h w hw.1
  | minimize id =>
      intro w hw
      simp only [stepSession, toggleMinimize, List.mem_map] at hw
      obtain ⟨v, hv, hfv⟩ := hw
      by_cases hid : v.id = id
      · rw [if_pos hid] at hfv
        subst hfv
        exact h v hv
      · rw [if_neg hid] at hfv
        subst hfv
        exact h v hv
  | move id pos vw vh =>
      intro w hw
      simp only [stepSession, moveWindow, List.mem_map] at hw
      obtain ⟨v, hv, hfv⟩ := hw
      by_cases hid : v.id = id
      · rw [if_pos hid] at hfv
        subst hfv
        exact h v hv
      · rw [if_neg hid] at hfv
        subst hfv
        exact h v hv

theorem windows_z_le_counter_run (es : List SessionEvent) (s : SessionState)
    (h : ∀ w ∈ s.windows, w.z ≤ s.counter) :
    ∀ w ∈ (runSession s es).windows, w.z ≤ (runSession s es).counter := by
  induction es generalizing s with
  | nil => exact h
  | cons e rest ih => exact ih _ (windows_z_le_counter_step s e h)

theorem openedIds_eq_map (es : List SessionEvent) :
    openedIds es = (eventDraws es).map (fun d => mkWindowId d.1 d.2.1 d.2.2) := by
  induction es with
  | nil => rfl
  | cons e rest ih => cases e <;> simp [openedIds, eventDraws, ih]

/-! ## Claim about identifiers and stacking order -/

/-- **C7 (amended).**  Provided the `(type, Date.now(), random-suffix)`
draws of the `openWindow` calls are pairwise distinct and the random
suffixes are dash-free (as base-36 strings are), all returned identifiers
are distinct.  Every open and focus event advances the stacking counter to
the strictly larger value `counter + 1`, every open window's stacking
value stays at most the counter, and focusing the most recently opened
window gives it a strictly larger stacking value than every other open
window.  (With colliding draws — possible since `Date.now()` has
millisecond resolution — identifiers repeat, see the counterexample.) -/
theorem claim_session_ids_and_stacking (es : List SessionEvent) (t : WindowType)
    (p : Option WindowPayload) (now : Nat) (rand : String) (rx ry : Int)
    (hnodup : (eventDraws (es ++ [.openWin t p now rand rx ry])).Nodup)
    (hdash : ∀ d ∈ eventDraws (es ++ [.openWin t p now rand rx ry]), dashFree d.2.2) :
    (openedIds (es ++ [.openWin t p now rand rx ry])).Nodup ∧
    (∀ (s : SessionState) (id : String),
        (stepSession s (.openWin t p now rand rx ry)).counter = s.counter + 1 ∧
        (stepSession s (.focus id)).counter = s.counter + 1) ∧
    (∀ w ∈ (runSession initSession (es ++ [.openWin t p now rand rx ry])).windows,
        w.z ≤ (runSession initSession (es ++ [.openWin t p now rand rx ry])).counter) ∧
    (∃ w ∈ (stepSession (runSession initSession (es ++ [.openWin t p now rand rx ry]))
          (.focus (mkWindowId t now rand))).windows,
        w.id = mkWindowId t now rand ∧
        ∀ w' ∈ (stepSession (runSession initSession (es ++ [.openWin t p now rand rx ry]))
            (.focus (mkWindowId t now rand))).windows,
          w'.id ≠ mkWindowId t now rand → w'.z < w.z) := by
  refine ⟨?_, ?_, ?_, ?_⟩
  · rw [openedIds_eq_map]
    refine hnodup.map_on ?_
    intro x hx y hy hxy
    obtain ⟨xt, xn, xr⟩ := x
    obtain ⟨yt, yn, yr⟩ := y
    obtain ⟨h1, h2, h3⟩ := mkWindowId_inj xt yt xn yn xr yr (hdash _ hx) (hdash _ hy) hxy
    subst h1
    subst h2
    subst h3
    rfl
  · intro s id
    exact ⟨rfl, rfl⟩
  · exact windows_z_le_counter_run _ initSession (by intro w hw; simp [initSession] at hw)
  · have hinv0 : ∀ w ∈ (runSession initSession es).windows,
        w.z ≤ (runSession initSession es).counter :=
      windows_z_le_counter_run es initSession (by intro w hw; simp [initSession] at hw)
    rw [runSession_append]
    set s0 := runSession initSession es with hs0
    show ∃ w ∈ (stepSession (stepSession s0 (.openWin t p now rand rx ry))
        (.focus (mkWindowId t now rand))).windows, _
    have hbase : (⟨mkWindowId t now rand, windowTitle t p, t,
        ⟨rx + (s0.windows.length : Int) * 12, ry + (s0.windows.length : Int) * 12⟩,
        some (windowSize t), false, s0.counter + 1, p⟩ : WinInstance) ∈
        (stepSession s0 (.openWin t p now rand rx ry)).windows := by
      simp [stepSession, openApp]
    refine ⟨_, List.mem_map_of_mem
      (fun w => if w.id = mkWindowId t now rand
        then { w with z := (stepSession s0 (.openWin t p now rand rx ry)).counter + 1 }
        else w) hbase, ?_, ?_⟩
    · simp
    · intro w' hw' hne
      simp only [stepSession, bringToFront, List.mem_map] at hw'
      obtain ⟨v, hv, hfv⟩ := hw'
      by_cases hid : v.id = mkWindowId t now rand
      · rw [if_pos hid] at hfv
        subst hfv
        exact absurd hid hne
      · rw [if_neg hid] at hfv
        subst hfv
        have hvz : v.z ≤ s0.counter + 1 :=
          windows_z_le_counter_step s0 (.openWin t p now rand rx ry) hinv0 v hv
        simp only [stepSession, openApp]
        simp at hvz ⊢
        omega

/-- Witness for C7: a single open with draw `(notepad, 5, "abc")` gives a
nodup id list, and focusing the freshly opened window makes its stacking
value strictly larger than that of every other open window. -/
theorem claim_session_ids_and_stacking_witness :
    (openedIds [.openWin .notepad none 5 "abc" 0 0]).Nodup ∧
    (∃ w ∈ (stepSession (runSession initSession [.openWin .notepad none 5 "abc" 0 0])
          (.focus (mkWindowId .notepad 5 "abc"))).windows,
        w.id = mkWindowId .notepad 5 "abc" ∧
        ∀ w' ∈ (stepSession (runSession initSession [.openWin .notepad none 5 "abc" 0 0])
            (.focus (mkWindowId .notepad 5 "abc"))).windows,
          w'.id ≠ mkWindowId .notepad 5 "abc" → w'.z < w.z) := by
  have h := claim_session_ids_and_stacking [] .notepad none 5 "abc" 0 0
    (by simp [eventDraws])
    (by
      intro d hd
      simp [eventDraws] at hd
      subst hd
      decide)
  exact ⟨h.1, h.2.2.2⟩

/-- Counterexample for C7 as stated: two `openWindow` calls that draw the
same `Date.now()` millisecond and the same random suffix return the same
identifier, so identifiers are not unconditionally unique. -/
theorem claim_session_ids_and_stacking_counterexample :
    ¬ (openedIds [.openWin .notepad none 5 "abc" 0 0,
                  .openWin .notepad none 5 "abc" 0 0]).Nodup := by
  intro h
  simp [openedIds, List.nodup_cons] at h

theorem updateAt_folder (p : List String)
    (f : List (String × FSNode) → List (String × FSNode))
    (cs : List (String × FSNode)) (m : RecycleMeta) :
    updateAt p f (.folder cs m) = .folder (updateChildren p f cs) m := by
  cases p <;> rfl

/-! ## Lemmas about `restoreFromRecycleBin` -/

theorem restoreFailConds_not (rootCs : List (String × FSNode)) (rootMeta : RecycleMeta)
    (rn : String) (bcs : List (String × FSNode)) (bm : RecycleMeta) (item : FSNode)
    (hb : lookupChild rootCs "Recycle Bin" = some (.folder bcs bm))
    (hc : lookupChild bcs rn = some item)
    (hpath : recOriginalPath item = [] ∨
      ∃ dcs dm, getNodeByPath (.folder rootCs rootMeta) (recOriginalPath item) =
        some (.folder dcs dm)) :
    ¬ restoreFailConds rootCs rootMeta rn := by
  intro h
  rcases h with h | h | h
  · exact h bcs bm hb
  · obtain ⟨bcs2, bm2, hb2, hc2⟩ := h
    rw [hb] at hb2
    injection hb2 with hb3
    injection hb3 with h1 h2
    subst h1
    rw [hc] at hc2
    simp at hc2
  · obtain ⟨bcs2, bm2, item2, hb2, hc2, hne, hres⟩ := h
    rw [hb] at hb2
    injection hb2 with hb3
    injection hb3 with h1 h2
    subst h1
    rw [hc] at hc2
    injection hc2 with h3
    subst h3
    rcases hpath with hp | ⟨dcs, dm, hp⟩
    · exact hne hp
    · exact hres dcs dm hp

theorem restore_false_iff (rootCs : List (String × FSNode)) (rootMeta : RecycleMeta)
    (rn : String) :
    (restoreFromRecycleBin (.folder rootCs rootMeta) rn).1 = false ↔
      restoreFailConds rootCs rootMeta rn := by
  cases hb : lookupChild rootCs "Recycle Bin" with
  | none =>
      apply iff_of_true
      · simp [restoreFromRecycleBin, hb]
      · exact Or.inl (fun bcs bm h => by rw [hb] at h; simp at h)
  | some b =>
      cases b with
      | file e sz c mm =>
          apply iff_of_true
          · simp [restoreFromRecycleBin, hb]
          · exact Or.inl (fun bcs bm h => by rw [hb] at h; simp at h)
      | folder bcs bm =>
          cases hc : lookupChild bcs rn with
          | none =>
              apply iff_of_true
              · simp [restoreFromRecycleBin, hb, hc]
              · exact Or.inr (Or.inl ⟨bcs, bm, hb, hc⟩)
          | some item =>
              cases hop : recOriginalPath item with
              | nil =>
                  apply iff_of_false
                  · by_cases hon : recOriginalName item rn = "Recycle Bin" <;>
                      simp [restoreFromRecycleBin, hb, hc, hop, hon]
                  · exact restoreFailConds_not rootCs rootMeta rn bcs bm item hb hc
                      (Or.inl hop)
              | cons a ps =>
                  cases hd : getNodeByPath (.folder rootCs rootMeta) (a :: ps) with
                  | none =>
                      apply iff_of_true
                      · simp [restoreFromRecycleBin, hb, hc, hop, hd]
                      · refine Or.inr (Or.inr ⟨bcs, bm, item, hb, hc, by rw [hop]; simp, ?_⟩)
                        intro dcs dm h
                        rw [hop, hd] at h
                        simp at h
                  | some d =>
                      cases d with
                      | file e2 s2 c2 m2 =>
                          apply iff_of_true
                          · simp [restoreFromRecycleBin, hb, hc, hop, hd]
                          · refine Or.inr (Or.inr ⟨bcs, bm, item, hb, hc, by rw [hop]; simp, ?_⟩)
                            intro dcs dm h
                            rw [hop, hd] at h
                            simp at h
                      | folder dcs dm =>
                          apply iff_of_false
                          · simp [restoreFromRecycleBin, hb, hc, hop, hd]
                          · exact restoreFailConds_not rootCs rootMeta rn bcs bm item hb hc
                              (Or.inr ⟨dcs, dm, by rw [hop]; exact hd⟩)

theorem restore_success_removal (rootCs : List (String × FSNode)) (rootMeta : RecycleMeta)
    (rn : String) (bcs : List (String × FSNode)) (bm : RecycleMeta) (item : FSNode)
    (hb : lookupChild rootCs "Recycle Bin" = some (.folder bcs bm))
    (hc : lookupChild bcs rn = some item)
    (hsucc : (restoreFromRecycleBin (.folder rootCs rootMeta) rn).1 = true)
    (hno : ¬ (recOriginalPath item = [] ∧ recOriginalName item rn = "Recycle Bin")) :
    lookupChild (binChildrenOf (restoreFromRecycleBin (.folder rootCs rootMeta) rn).2) rn =
      none := by
  cases hop : recOriginalPath item with
  | nil =>
      have hon : recOriginalName item rn ≠ "Recycle Bin" := fun he => hno ⟨hop, he⟩
      simp only [restoreFromRecycleBin, hb, hc, hop]
      rw [if_neg hon]
      rw [updateAt_cons]
      simp only [binChildrenOf, FSNode.childrenOf]
      rw [lookupChild_replaceChild_self,
        lookupChild_setKey_ne _ _ _ _ (Ne.symm hon), hb]
      simp only [Option.map_some', updateAt_nil]
      exact lookupChild_delKey_self bcs rn
  | cons a ps =>
      cases hd : getNodeByPath (.folder rootCs rootMeta) (a :: ps) with
      | none => simp [restoreFromRecycleBin, hb, hc, hop, hd] at hsucc
      | some d =>
          cases d with
          | file e2 s2 c2 m2 => simp [restoreFromRecycleBin, hb, hc, hop, hd] at hsucc
          | folder dcs dm =>
              simp only [restoreFromRecycleBin, hb, hc, hop, hd]
              rw [updateAt_cons]
              simp only [binChildrenOf, FSNode.childrenOf]
              by_cases ha : a = "Recycle Bin"
              · subst ha
                rw [updateAt_cons]
                rw [lookupChild_replaceChild_self, lookupChild_replaceChild_self, hb]
                simp only [Option.map_some', updateAt_nil, updateAt_folder]
                exact lookupChild_delKey_self _ rn
              · rw [updateAt_cons]
                rw [lookupChild_replaceChild_self,
                  lookupChild_replaceChild_ne _ _ _ _ (fun h => ha h.symm), hb]
                simp only [Option.map_some', updateAt_nil]
                exact lookupChild_delKey_self bcs rn

theorem getNodeByPath_setKey_last (cs : List (String × FSNode)) (m : RecycleMeta)
    (k : String) (v : FSNode) :
    getNodeByPath (.folder (setKey cs k v) m) [k] = some v := by
  simp only [getNodeByPath, lookupChild_setKey_self]

theorem restore_success_retrieval (rootCs : List (String × FSNode)) (rootMeta : RecycleMeta)
    (rn : String) (bcs : List (String × FSNode)) (bm : RecycleMeta) (item : FSNode)
    (hb : lookupChild rootCs "Recycle Bin" = some (.folder bcs bm))
    (hc : lookupChild bcs rn = some item)
    (hsucc : (restoreFromRecycleBin (.folder rootCs rootMeta) rn).1 = true)
    (hpre : ¬ (["Recycle Bin", rn] <+:
      (recOriginalPath item ++ [recOriginalName item rn]))) :
    getNodeByPath (restoreFromRecycleBin (.folder rootCs rootMeta) rn).2
      (recOriginalPath item ++ [recOriginalName item rn]) = some item.stripMeta := by
  cases hop : recOriginalPath item with
  | nil =>
      by_cases hon : recOriginalName item rn = "Recycle Bin"
      · simp only [restoreFromRecycleBin, hb, hc, hop]
        rw [if_pos hon]
        exact getNodeByPath_setKey_last rootCs rootMeta (recOriginalName item rn) item.stripMeta
      · simp only [restoreFromRecycleBin, hb, hc, hop]
        rw [if_neg hon]
        show getNodeByPath (updateAt ["Recycle Bin"] (fun cs => delKey cs rn)
            (.folder (setKey rootCs (recOriginalName item rn) item.stripMeta) rootMeta))
            [recOriginalName item rn] = some item.stripMeta
        rw [updateAt_cons]
        simp only [getNodeByPath]
        rw [lookupChild_replaceChild_ne _ _ _ _ hon, lookupChild_setKey_self]
  | cons a ps =>
      cases hd : getNodeByPath (.folder rootCs rootMeta) (a :: ps) with
      | none => simp [restoreFromRecycleBin, hb, hc, hop, hd] at hsucc
      | some d =>
          cases d with
          | file e2 s2 c2 m2 => simp [restoreFromRecycleBin, hb, hc, hop, hd] at hsucc
          | folder dcs dm =>
              simp only [restoreFromRecycleBin, hb, hc, hop, hd]
              by_cases ha : a = "Recycle Bin"
              · subst ha
                cases ps with
                | nil =>
                    have hon : recOriginalName item rn ≠ rn := by
                      intro he
                      exact hpre (by rw [hop, he]; exact ⟨[], rfl⟩)
                    have hbb : getNodeByPath (.folder rootCs rootMeta) ["Recycle Bin"] =
                        some (.folder bcs bm) := by
                      simp [getNodeByPath, hb, getNodeByPath_nil]
                    rw [updateAt_updateAt]
                    have h2 := getNodeByPath_updateAt_append (.folder rootCs rootMeta)
                      ["Recycle Bin"] [recOriginalName item rn]
                      (fun cs => delKey (setKey cs (recOriginalName item rn) item.stripMeta) rn)
                      bcs bm hbb
                    refine h2.trans ?_
                    simp only [getNodeByPath]
                    rw [lookupChild_delKey_ne _ _ _ hon, lookupChild_setKey_self]
                | cons r0 ps2 =>
                    have hr0 : r0 ≠ rn := by
                      intro he
                      exact hpre (by rw [hop, he]; exact ⟨ps2 ++ [recOriginalName item rn],
                        by simp⟩)
                    have hd2 : getNodeByPath (.folder bcs bm) (r0 :: ps2) =
                        some (.folder dcs dm) := by
                      simpa [getNodeByPath, hb] using hd
                    simp only [getNodeByPath] at hd2
                    cases hc2 : lookupChild bcs r0 with
                    | none => rw [hc2] at hd2; simp at hd2
                    | some c =>
                        rw [hc2] at hd2
                        have hd3 : getNodeByPath c ps2 = some (.folder dcs dm) := hd2
                        rw [updateAt_cons, updateAt_cons, replaceChild_replaceChild]
                        show getNodeByPath (FSNode.folder (replaceChild "Recycle Bin"
                            (fun v => updateAt []
                              (fun cs => delKey cs rn)
                              (updateAt (r0 :: ps2)
                                (fun cs => setKey cs (recOriginalName item rn) item.stripMeta)
                                v)) rootCs) rootMeta)
                            ("Recycle Bin" :: (r0 :: (ps2 ++ [recOriginalName item rn]))) =
                          some item.stripMeta
                        simp only [getNodeByPath, lookupChild_replaceChild_self, hb,
                          Option.map_some', updateAt_cons, updateAt_nil]
                        rw [lookupChild_delKey_ne _ _ _ hr0]
                        rw [lookupChild_replaceChild_self, hc2]
                        simp only [Option.map_some']
                        have h2 := getNodeByPath_updateAt_append c ps2
                          [recOriginalName item rn]
                          (fun cs => setKey cs (recOriginalName item rn) item.stripMeta)
                          dcs dm hd3
                        refine h2.trans ?_
                        exact getNodeByPath_setKey_last dcs dm _ _
              · have h1 := getNodeByPath_updateAt_head_ne
                  (updateAt (a :: ps)
                    (fun cs => setKey cs (recOriginalName item rn) item.stripMeta)
                    (.folder rootCs rootMeta))
                  "Recycle Bin" a [] (ps ++ [recOriginalName item rn])
                  (fun cs => delKey cs rn) ha
                have h2 := getNodeByPath_updateAt_append (.folder rootCs rootMeta)
                  (a :: ps) [recOriginalName item rn]
                  (fun cs => setKey cs (recOriginalName item rn) item.stripMeta)
                  dcs dm hd
                exact h1.trans (h2.trans (getNodeByPath_setKey_last dcs dm _ _))

/-! ## Claim about `restoreFromRecycleBin` -/

/-- **C3 (amended).**  `restoreFromRecycleBin` fails exactly when the bin
folder is absent, the entry is absent, or the recorded original path does
not resolve to a folder (`restoreFailConds`).  On success it first inserts
the metadata-stripped copy at the original path under the original name
and then deletes the recycle entry, so: the stripped copy is found at the
original location unless that location lies at or below the entry's own
bin slot (`["Recycle Bin", rn]` a prefix of it — then the deletion removes
the copy again), and the entry is gone from the bin unless the restored
item replaced the bin itself (original location root/`"Recycle Bin"` — the
JS `delete` then acts on the detached old bin object). -/
theorem claim_restoreFromRecycleBin_spec (rootCs : List (String × FSNode))
    (rootMeta : RecycleMeta) (rn : String) :
    ((restoreFromRecycleBin (.folder rootCs rootMeta) rn).1 = false ↔
      restoreFailConds rootCs rootMeta rn) ∧
    (∀ bcs bm item, lookupChild rootCs "Recycle Bin" = some (.folder bcs bm) →
      lookupChild bcs rn = some item →
      (restoreFromRecycleBin (.folder rootCs rootMeta) rn).1 = true →
      (¬ (["Recycle Bin", rn] <+: (recOriginalPath item ++ [recOriginalName item rn])) →
        getNodeByPath (restoreFromRecycleBin (.folder rootCs rootMeta) rn).2
          (recOriginalPath item ++ [recOriginalName item rn]) = some item.stripMeta) ∧
      (¬ (recOriginalPath item = [] ∧ recOriginalName item rn = "Recycle Bin") →
        lookupChild (binChildrenOf (restoreFromRecycleBin (.folder rootCs rootMeta) rn).2)
          rn = none)) := by
  refine ⟨restore_false_iff rootCs rootMeta rn, ?_⟩
  intro bcs bm item hb hc hsucc
  exact ⟨fun hpre => restore_success_retrieval rootCs rootMeta rn bcs bm item hb hc hsucc hpre,
         fun hno => restore_success_removal rootCs rootMeta rn bcs bm item hb hc hsucc hno⟩

/-- Witness for C3: restoring a file recycled from the root puts the
stripped copy back under its original name and removes the bin entry. -/
theorem claim_restoreFromRecycleBin_spec_witness :
    getNodeByPath (restoreFromRecycleBin (.folder [("Recycle Bin", .folder
        [("f_T", .file "txt" 1 (some "z") ⟨some [], some "f", some "D"⟩)] noMeta)] noMeta)
      "f_T").2 ["f"] = some (.file "txt" 1 (some "z") noMeta) ∧
    lookupChild (binChildrenOf (restoreFromRecycleBin (.folder [("Recycle Bin", .folder
        [("f_T", .file "txt" 1 (some "z") ⟨some [], some "f", some "D"⟩)] noMeta)] noMeta)
      "f_T").2) "f_T" = none := by
  have h := (claim_restoreFromRecycleBin_spec
    [("Recycle Bin", .folder
        [("f_T", .file "txt" 1 (some "z") ⟨some [], some "f", some "D"⟩)] noMeta)]
    noMeta "f_T").2
    [("f_T", .file "txt" 1 (some "z") ⟨some [], some "f", some "D"⟩)] noMeta
    (.file "txt" 1 (some "z") ⟨some [], some "f", some "D"⟩) rfl rfl rfl
  refine ⟨?_, ?_⟩
  · exact h.1 (by decide)
  · exact h.2 (by decide)

/-- Counterexample for C3 as stated: an entry whose recorded original
location is its own recycle-bin slot restores successfully, but the final
deletion of the entry removes the just-inserted copy, so nothing is found
at the original location afterwards. -/
theorem claim_restoreFromRecycleBin_spec_counterexample :
    (restoreFromRecycleBin (.folder [("Recycle Bin", .folder
        [("x", .file "txt" 1 none ⟨some ["Recycle Bin"], some "x", some "D"⟩)] noMeta)] noMeta)
      "x").1 = true ∧
    recOriginalPath (.file "txt" 1 none ⟨some ["Recycle Bin"], some "x", some "D"⟩) ++
      [recOriginalName (.file "txt" 1 none ⟨some ["Recycle Bin"], some "x", some "D"⟩) "x"] =
      ["Recycle Bin", "x"] ∧
    getNodeByPath (restoreFromRecycleBin (.folder [("Recycle Bin", .folder
        [("x", .file "txt" 1 none ⟨some ["Recycle Bin"], some "x", some "D"⟩)] noMeta)] noMeta)
      "x").2 ["Recycle Bin", "x"] = none := by
  exact ⟨rfl, rfl, rfl⟩

/-! ## Lemmas for the move/restore round trip -/

theorem delKey_comm (cs : List (String × FSNode)) (a b : String) :
    delKey (delKey cs a) b = delKey (delKey cs b) a := by
  by_cases hab : a = b
  · subst hab
    rfl
  · have hba : ¬ b = a := fun e => hab e.symm
    induction cs with
    | nil => simp [delKey]
    | cons p rest ih =>
        obtain ⟨k, w⟩ := p
        by_cases hka : k = a
        · subst hka
          simp [delKey, hab, hba, ih]
        · by_cases hkb : k = b
          · subst hkb
            simp [delKey, hka, hba, ih]
          · simp [delKey, hka, hkb, ih]

theorem delKey_setKey_fresh (cs : List (String × FSNode)) (k : String) (v : FSNode)
    (h : lookupChild cs k = none) : delKey (setKey cs k v) k = cs := by
  rw [setKey_of_lookup_none _ _ _ h, delKey_append, delKey_of_lookup_none _ _ h]
  simp [delKey]

theorem replaceChild_eq_of_lookup (cs : List (String × FSNode)) (k : String) (v : FSNode)
    (g1 g2 : FSNode → FSNode) (h : lookupChild cs k = some v) (he : g1 v = g2 v) :
    replaceChild k g1 cs = replaceChild k g2 cs := by
  induction cs with
  | nil => simp [replaceChild]
  | cons p rest ih =>
      obtain ⟨a, w⟩ := p
      by_cases ha : a = k
      · subst ha
        simp [lookupChild] at h
        subst h
        simp [replaceChild, he]
      · simp [lookupChild, ha] at h
        simp [replaceChild, ha, ih h]

theorem metaOf_withMeta (item : FSNode) (m : RecycleMeta) :
    (item.withMeta m).metaOf = m := by
  cases item <;> rfl

theorem stripMeta_withMeta_of_noMeta (item : FSNode) (m : RecycleMeta)
    (h : item.metaOf = noMeta) : (item.withMeta m).stripMeta = item := by
  cases item with
  | file e s c m0 =>
      simp [FSNode.metaOf] at h
      simp [FSNode.withMeta, FSNode.stripMeta, h]
  | folder cs m0 =>
      simp [FSNode.metaOf] at h
      simp [FSNode.withMeta, FSNode.stripMeta, h]

theorem name_ne_recycledName (s t : String) : s ≠ s ++ "_" ++ t := by
  intro h
  have hl := congrArg String.length h
  rw [String.length_append, String.length_append] at hl
  have h1 : "_".length = 1 := rfl
  omega

theorem nodeEquiv_folder_of_lookupEq (cs cs2 : List (String × FSNode)) (m : RecycleMeta)
    (h : ∀ k, lookupChild cs2 k = lookupChild cs k) :
    NodeEquiv (.folder cs2 m) (.folder cs m) := by
  refine .folder cs2 cs m (fun k => ?_)
  rw [h k]
  cases lookupChild cs k with
  | none => exact .none
  | some c => exact .some (nodeEquiv_refl c)

/-- A functional update that preserves all lookups of the children record
of the folder it targets yields an order-irrelevantly equal tree. -/
theorem nodeEquiv_updateAt_of_lookupEq (p : List String)
    (g : List (String × FSNode) → List (String × FSNode)) (t : FSNode)
    (cs : List (String × FSNode)) (m : RecycleMeta)
    (hres : getNodeByPath t p = some (.folder cs m))
    (h : ∀ k, lookupChild (g cs) k = lookupChild cs k) :
    NodeEquiv (updateAt p g t) t := by
  induction p generalizing t with
  | nil =>
      rw [getNodeByPath_nil] at hres
      injection hres with hres
      subst hres
      rw [updateAt_nil]
      exact nodeEquiv_folder_of_lookupEq cs (g cs) m h
  | cons a ps ih =>
      cases t with
      | file e s c m0 => simp [getNodeByPath] at hres
      | folder cs0 m0 =>
          simp only [getNodeByPath] at hres
          cases hc : lookupChild cs0 a with
          | none => rw [hc] at hres; simp at hres
          | some c =>
              rw [hc] at hres
              rw [updateAt_cons]
              refine .folder _ cs0 m0 (fun k => ?_)
              by_cases hk : k = a
              · subst hk
                rw [lookupChild_replaceChild_self, hc]
                exact .some (ih c hres)
              · rw [lookupChild_replaceChild_ne _ _ _ _ hk]
                cases lookupChild cs0 k with
                | none => exact .none
                | some c2 => exact .some (nodeEquiv_refl c2)

theorem lookupEq_setKey_delKey (cs : List (String × FSNode)) (itemName : String)
    (item : FSNode) (h : lookupChild cs itemName = some item) :
    ∀ k, lookupChild (setKey (delKey cs itemName) itemName item) k = lookupChild cs k := by
  intro k
  by_cases hk : k = itemName
  · subst hk
    rw [lookupChild_setKey_self, h]
  · rw [lookupChild_setKey_ne _ _ _ _ hk, lookupChild_delKey_ne _ _ _ hk]

theorem move_eval (rootCs : List (String × FSNode)) (rootMeta : RecycleMeta)
    (itemPath : List String) (itemName tsName tsDeleted : String)
    (srcCs : List (String × FSNode)) (srcM : RecycleMeta) (item : FSNode)
    (bcs : List (String × FSNode)) (bm : RecycleMeta)
    (hsrc : getNodeByPath (.folder rootCs rootMeta) itemPath = some (.folder srcCs srcM))
    (hitem : lookupChild srcCs itemName = some item)
    (hbin : lookupChild rootCs "Recycle Bin" = some (.folder bcs bm)) :
    moveToRecycleBin (.folder rootCs rootMeta) itemPath itemName tsName tsDeleted =
      .ret true (updateAt itemPath (fun cs => delKey cs itemName)
        (updateAt ["Recycle Bin"]
          (fun cs => setKey cs (itemName ++ "_" ++ tsName)
            (item.withMeta ⟨some itemPath, some itemName, some tsDeleted⟩))
          (.folder rootCs rootMeta))) := by
  simp only [moveToRecycleBin, hsrc, hitem, hbin]

theorem restore_eval_nil (T : List (String × FSNode)) (rootMeta : RecycleMeta)
    (rn onm : String) (B : List (String × FSNode)) (bm : RecycleMeta) (entry : FSNode)
    (hA : lookupChild T "Recycle Bin" = some (.folder B bm))
    (hB : lookupChild B rn = some entry)
    (hop : recOriginalPath entry = [])
    (hon : recOriginalName entry rn = onm)
    (hne : onm ≠ "Recycle Bin") :
    restoreFromRecycleBin (.folder T rootMeta) rn =
      (true, updateAt ["Recycle Bin"] (fun cs => delKey cs rn)
        (.folder (setKey T onm entry.stripMeta) rootMeta)) := by
  simp only [restoreFromRecycleBin, hA, hB, hop, hon]
  rw [if_neg hne]

theorem restore_eval_cons (T : List (String × FSNode)) (rootMeta : RecycleMeta)
    (rn onm : String) (B : List (String × FSNode)) (bm : RecycleMeta) (entry : FSNode)
    (a : String) (ps : List String) (dcs : List (String × FSNode)) (dm : RecycleMeta)
    (hA : lookupChild T "Recycle Bin" = some (.folder B bm))
    (hB : lookupChild B rn = some entry)
    (hop : recOriginalPath entry = a :: ps)
    (hon : recOriginalName entry rn = onm)
    (hd : getNodeByPath (.folder T rootMeta) (a :: ps) = some (.folder dcs dm)) :
    restoreFromRecycleBin (.folder T rootMeta) rn =
      (true, updateAt ["Recycle Bin"] (fun cs => delKey cs rn)
        (updateAt (a :: ps) (fun cs => setKey cs onm entry.stripMeta)
          (.folder T rootMeta))) := by
  simp only [restoreFromRecycleBin, hA, hB, hop, hon, hd]

/-! ## Claim about the move/restore round trip -/

/-- **C1 (amended).**  Moving a child to the recycle bin and restoring the
resulting entry returns the tree to an order-irrelevantly equal state,
provided: the root already has a `"Recycle Bin"` folder child whose record
lacks the generated recycled name, the moved child carries no recycle
metadata, its name is non-empty, and the moved child is not the root-level
recycle bin itself.  (Without an existing bin the round trip leaves a new
empty `"Recycle Bin"` folder behind — see the counterexample; a recycled
child would lose its metadata, an empty name restores under the recycled
name, and moving the bin into itself deletes it outright.) -/
theorem claim_move_restore_roundtrip (rootCs : List (String × FSNode)) (rootMeta : RecycleMeta)
    (itemPath : List String) (itemName tsName tsDeleted : String)
    (srcCs : List (String × FSNode)) (srcM : RecycleMeta) (item : FSNode)
    (bcs : List (String × FSNode)) (bm : RecycleMeta)
    (hsrc : getNodeByPath (.folder rootCs rootMeta) itemPath = some (.folder srcCs srcM))
    (hitem : lookupChild srcCs itemName = some item)
    (hmeta : item.metaOf = noMeta)
    (hname : itemName ≠ "")
    (hnotbin : ¬ (itemPath = [] ∧ itemName = "Recycle Bin"))
    (hbin : lookupChild rootCs "Recycle Bin" = some (.folder bcs bm))
    (hfresh : lookupChild bcs (itemName ++ "_" ++ tsName) = none) :
    ∃ t, moveToRecycleBin (.folder rootCs rootMeta) itemPath itemName tsName tsDeleted =
        .ret true t ∧
      (restoreFromRecycleBin t (itemName ++ "_" ++ tsName)).1 = true ∧
      NodeEquiv (restoreFromRecycleBin t (itemName ++ "_" ++ tsName)).2
        (.folder rootCs rootMeta) := by
  have hmove := move_eval rootCs rootMeta itemPath itemName tsName tsDeleted
    srcCs srcM item bcs bm hsrc hitem hbin
  refine ⟨_, hmove, ?_⟩
  have hrn : itemName ≠ itemName ++ "_" ++ tsName := name_ne_recycledName itemName tsName
  have hrop : recOriginalPath
      (item.withMeta ⟨some itemPath, some itemName, some tsDeleted⟩) = itemPath := by
    simp [recOriginalPath, metaOf_withMeta]
  have hron : recOriginalName
      (item.withMeta ⟨some itemPath, some itemName, some tsDeleted⟩)
      (itemName ++ "_" ++ tsName) = itemName := by
    simp [recOriginalName, metaOf_withMeta, hname]
  have hstrip : (item.withMeta ⟨some itemPath, some itemName, some tsDeleted⟩).stripMeta =
      item := stripMeta_withMeta_of_noMeta item _ hmeta
  cases itemPath with
  | nil =>
      have hnb : itemName ≠ "Recycle Bin" := fun h => hnotbin ⟨rfl, h⟩
      rw [getNodeByPath_nil] at hsrc
      injection hsrc with he
      -- he : .folder rootCs rootMeta = .folder srcCs srcM
      injection he with he1 he2
      subst he1
      subst he2
      -- compute the moved tree
      rw [updateAt_cons, updateAt_nil]
      have hA : lookupChild (delKey (replaceChild "Recycle Bin"
            (updateAt [] (fun cs => setKey cs (itemName ++ "_" ++ tsName)
              (item.withMeta ⟨some [], some itemName, some tsDeleted⟩))) rootCs) itemName)
          "Recycle Bin" = some (.folder (setKey bcs (itemName ++ "_" ++ tsName)
            (item.withMeta ⟨some [], some itemName, some tsDeleted⟩)) bm) := by
        rw [lookupChild_delKey_ne _ _ _ (Ne.symm hnb), lookupChild_replaceChild_self, hbin]
        rfl
      have hres := restore_eval_nil _ rootMeta (itemName ++ "_" ++ tsName) itemName _ bm
        (item.withMeta ⟨some [], some itemName, some tsDeleted⟩)
        hA (lookupChild_setKey_self _ _ _) hrop hron hnb
      rw [hres]
      refine ⟨rfl, ?_⟩
      show NodeEquiv (updateAt ["Recycle Bin"] _ (.folder _ rootMeta)) (.folder rootCs rootMeta)
      rw [hstrip, updateAt_cons]
      rw [replaceChild_setKey_ne _ _ _ _ _ (Ne.symm hnb)]
      rw [replaceChild_delKey_ne _ _ _ _ (Ne.symm hnb)]
      rw [replaceChild_replaceChild]
      rw [replaceChild_of_fix _ _ _ ?hfix]
      case hfix =>
        intro c hcl
        rw [hbin] at hcl
        injection hcl with hcl
        subst hcl
        rw [updateAt_nil, updateAt_nil]
        rw [delKey_setKey_fresh _ _ _ hfresh]
      exact nodeEquiv_folder_of_lookupEq rootCs _ rootMeta
        (lookupEq_setKey_delKey rootCs itemName item hitem)
  | cons a ps =>
      by_cases ha : a = "Recycle Bin"
      · subst ha
        cases ps with
        | nil =>
            -- the moved item lives directly in the recycle bin
            have hsm : FSNode.folder bcs bm = FSNode.folder srcCs srcM := by
              have h1 : getNodeByPath (.folder rootCs rootMeta) ["Recycle Bin"] =
                  some (.folder bcs bm) := by
                simp only [getNodeByPath, hbin]
              rw [h1] at hsrc
              injection hsrc
            injection hsm with he1 he2
            subst he1
            subst he2
            rw [updateAt_updateAt, updateAt_cons]
            have hA : lookupChild (replaceChild "Recycle Bin"
                (updateAt [] (fun cs => delKey (setKey cs (itemName ++ "_" ++ tsName)
                  (item.withMeta ⟨some ["Recycle Bin"], some itemName, some tsDeleted⟩))
                  itemName)) rootCs) "Recycle Bin" =
                some (.folder (delKey (setKey bcs (itemName ++ "_" ++ tsName)
                  (item.withMeta ⟨some ["Recycle Bin"], some itemName, some tsDeleted⟩))
                  itemName) bm) := by
              rw [lookupChild_replaceChild_self, hbin]
              rfl
            have hB : lookupChild (delKey (setKey bcs (itemName ++ "_" ++ tsName)
                (item.withMeta ⟨some ["Recycle Bin"], some itemName, some tsDeleted⟩))
                itemName) (itemName ++ "_" ++ tsName) = some
                (item.withMeta ⟨some ["Recycle Bin"], some itemName, some tsDeleted⟩) := by
              rw [lookupChild_delKey_ne _ _ _ (Ne.symm hrn), lookupChild_setKey_self]
            have hd : getNodeByPath (.folder (replaceChild "Recycle Bin"
                (updateAt [] (fun cs => delKey (setKey cs (itemName ++ "_" ++ tsName)
                  (item.withMeta ⟨some ["Recycle Bin"], some itemName, some tsDeleted⟩))
                  itemName)) rootCs) rootMeta) ["Recycle Bin"] =
                some (.folder (delKey (setKey bcs (itemName ++ "_" ++ tsName)
                  (item.withMeta ⟨some ["Recycle Bin"], some itemName, some tsDeleted⟩))
                  itemName) bm) := by
              simp only [getNodeByPath, hA]
            have hres := restore_eval_cons _ rootMeta (itemName ++ "_" ++ tsName) itemName
              _ bm (item.withMeta ⟨some ["Recycle Bin"], some itemName, some tsDeleted⟩)
              "Recycle Bin" [] _ bm hA hB hrop hron hd
            rw [hres]
            refine ⟨rfl, ?_⟩
            rw [hstrip]
            rw [updateAt_cons, updateAt_cons, replaceChild_replaceChild,
              replaceChild_replaceChild]
            have hval : ∀ c, lookupChild rootCs "Recycle Bin" = some c →
                updateAt [] (fun cs => delKey cs (itemName ++ "_" ++ tsName))
                  (updateAt [] (fun cs => setKey cs itemName item)
                    (updateAt [] (fun cs => delKey (setKey cs (itemName ++ "_" ++ tsName)
                      (item.withMeta ⟨some ["Recycle Bin"], some itemName, some tsDeleted⟩))
                      itemName) c)) =
                updateAt [] (fun cs => setKey (delKey cs itemName) itemName item) c := by
              intro c hcl
              rw [hbin] at hcl
              injection hcl with hcl
              subst hcl
              rw [updateAt_nil, updateAt_nil, updateAt_nil, updateAt_nil]
              refine congrArg (fun x => FSNode.folder x bm) ?_
              rw [← setKey_delKey_ne _ _ _ _ hrn]
              rw [delKey_comm, delKey_setKey_fresh _ _ _ hfresh]
            rw [replaceChild_eq_of_lookup rootCs "Recycle Bin" (.folder bcs bm) _ _ hbin
              (hval _ hbin)]
            rw [show (replaceChild "Recycle Bin"
                (updateAt [] (fun cs => setKey (delKey cs itemName) itemName item)) rootCs) =
              updateChildren ["Recycle Bin"]
                (fun cs => setKey (delKey cs itemName) itemName item) rootCs from rfl]
            rw [← updateAt_folder]
            exact nodeEquiv_updateAt_of_lookupEq ["Recycle Bin"] _ _ bcs bm
              (by simp only [getNodeByPath, hbin])
              (lookupEq_setKey_delKey bcs itemName item hitem)
        | cons r0 ps2 =>
            -- the moved item lives deeper inside the recycle bin
            have hsrc2 : getNodeByPath (.folder bcs bm) (r0 :: ps2) =
                some (.folder srcCs srcM) := by
              simpa only [getNodeByPath, hbin] using hsrc
            simp only [getNodeByPath] at hsrc2
            cases hla : lookupChild bcs r0 with
            | none => rw [hla] at hsrc2; simp at hsrc2
            | some c =>
                rw [hla] at hsrc2
                have hr0 : r0 ≠ itemName ++ "_" ++ tsName := by
                  intro he
                  rw [he, hfresh] at hla
                  cases hla
                rw [updateAt_cons, updateAt_cons, replaceChild_replaceChild]
                have hA : lookupChild (replaceChild "Recycle Bin"
                    (fun v => updateAt (r0 :: ps2) (fun cs => delKey cs itemName)
                      (updateAt [] (fun cs => setKey cs (itemName ++ "_" ++ tsName)
                        (item.withMeta ⟨some ("Recycle Bin" :: r0 :: ps2), some itemName,
                          some tsDeleted⟩)) v)) rootCs) "Recycle Bin" =
                    some (.folder (replaceChild r0
                      (updateAt ps2 (fun cs => delKey cs itemName))
                      (setKey bcs (itemName ++ "_" ++ tsName)
                        (item.withMeta ⟨some ("Recycle Bin" :: r0 :: ps2), some itemName,
                          some tsDeleted⟩))) bm) := by
                  rw [lookupChild_replaceChild_self, hbin]
                  rfl
                have hB : lookupChild (replaceChild r0
                    (updateAt ps2 (fun cs => delKey cs itemName))
                    (setKey bcs (itemName ++ "_" ++ tsName)
                      (item.withMeta ⟨some ("Recycle Bin" :: r0 :: ps2), some itemName,
                        some tsDeleted⟩))) (itemName ++ "_" ++ tsName) =
                    some (item.withMeta ⟨some ("Recycle Bin" :: r0 :: ps2), some itemName,
                      some tsDeleted⟩) := by
                  rw [lookupChild_replaceChild_ne _ _ _ _ (Ne.symm hr0),
                    lookupChild_setKey_self]
                have hstep1 : lookupChild (replaceChild r0
                    (updateAt ps2 (fun cs => delKey cs itemName))
                    (setKey bcs (itemName ++ "_" ++ tsName)
                      (item.withMeta ⟨some ("Recycle Bin" :: r0 :: ps2), some itemName,
                        some tsDeleted⟩))) r0 =
                    some (updateAt ps2 (fun cs => delKey cs itemName) c) := by
                  rw [lookupChild_replaceChild_self,
                    lookupChild_setKey_ne _ _ _ _ hr0, hla]
                  rfl
                have hstep2 : getNodeByPath
                    (updateAt ps2 (fun cs => delKey cs itemName) c) ps2 =
                    some (.folder (delKey srcCs itemName) srcM) := by
                  have h2 := getNodeByPath_updateAt_append c ps2 []
                    (fun cs => delKey cs itemName) srcCs srcM hsrc2
                  rw [List.append_nil] at h2
                  exact h2.trans (getNodeByPath_nil _)
                have hd : getNodeByPath (.folder (replaceChild "Recycle Bin"
                    (fun v => updateAt (r0 :: ps2) (fun cs => delKey cs itemName)
                      (updateAt [] (fun cs => setKey cs (itemName ++ "_" ++ tsName)
                        (item.withMeta ⟨some ("Recycle Bin" :: r0 :: ps2), some itemName,
                          some tsDeleted⟩)) v)) rootCs) rootMeta)
                    ("Recycle Bin" :: r0 :: ps2) =
                    some (.folder (delKey srcCs itemName) srcM) := by
                  simp only [getNodeByPath, hA, hstep1, hstep2]
                have hres := restore_eval_cons _ rootMeta (itemName ++ "_" ++ tsName)
                  itemName _ bm
                  (item.withMeta ⟨some ("Recycle Bin" :: r0 :: ps2), some itemName,
                    some tsDeleted⟩)
                  "Recycle Bin" (r0 :: ps2) _ srcM hA hB hrop hron hd
                rw [hres]
                refine ⟨rfl, ?_⟩
                rw [hstrip]
                rw [updateAt_cons, replaceChild_replaceChild,
                  updateAt_cons, replaceChild_replaceChild]
                have hval : updateAt [] (fun cs => delKey cs (itemName ++ "_" ++ tsName))
                    (updateAt (r0 :: ps2) (fun cs => setKey cs itemName item)
                      ((fun v => updateAt (r0 :: ps2) (fun cs => delKey cs itemName)
                        (updateAt [] (fun cs => setKey cs (itemName ++ "_" ++ tsName)
                          (item.withMeta ⟨some ("Recycle Bin" :: r0 :: ps2), some itemName,
                            some tsDeleted⟩)) v)) (.folder bcs bm))) =
                    updateAt (r0 :: ps2) (fun cs => setKey (delKey cs itemName)
                      itemName item) (.folder bcs bm) := by
                  show updateAt [] (fun cs => delKey cs (itemName ++ "_" ++ tsName))
                    (updateAt (r0 :: ps2) (fun cs => setKey cs itemName item)
                      (.folder (replaceChild r0 (updateAt ps2 (fun cs => delKey cs itemName))
                        (setKey bcs (itemName ++ "_" ++ tsName)
                          (item.withMeta ⟨some ("Recycle Bin" :: r0 :: ps2), some itemName,
                            some tsDeleted⟩))) bm)) =
                    updateAt (r0 :: ps2) (fun cs => setKey (delKey cs itemName)
                      itemName item) (.folder bcs bm)
                  rw [updateAt_cons, updateAt_nil, replaceChild_replaceChild]
                  rw [← replaceChild_delKey_ne _ _ _ _ hr0]
                  rw [delKey_setKey_fresh _ _ _ hfresh]
                  rw [updateAt_cons]
                  refine congrArg (fun x => FSNode.folder x bm) ?_
                  refine replaceChild_congr _ _ _ _ (fun v => ?_)
                  exact updateAt_updateAt ps2 _ _ v
                rw [replaceChild_eq_of_lookup rootCs "Recycle Bin" (.folder bcs bm) _
                  (updateAt (r0 :: ps2) (fun cs => setKey (delKey cs itemName) itemName item))
                  hbin hval]
                rw [show (replaceChild "Recycle Bin"
                    (updateAt (r0 :: ps2)
                      (fun cs => setKey (delKey cs itemName) itemName item)) rootCs) =
                  updateChildren ("Recycle Bin" :: r0 :: ps2)
                    (fun cs => setKey (delKey cs itemName) itemName item) rootCs from rfl]
                rw [← updateAt_folder]
                exact nodeEquiv_updateAt_of_lookupEq ("Recycle Bin" :: r0 :: ps2) _ _
                  srcCs srcM hsrc (lookupEq_setKey_delKey srcCs itemName item hitem)
      · -- the source folder is outside the recycle bin
        simp only [getNodeByPath] at hsrc
        cases hla : lookupChild rootCs a with
        | none => rw [hla] at hsrc; simp at hsrc
        | some c =>
            rw [hla] at hsrc
            rw [updateAt_cons, updateAt_cons]
            have hA : lookupChild (replaceChild a
                (updateAt ps (fun cs => delKey cs itemName))
                (replaceChild "Recycle Bin"
                  (updateAt [] (fun cs => setKey cs (itemName ++ "_" ++ tsName)
                    (item.withMeta ⟨some (a :: ps), some itemName, some tsDeleted⟩)))
                  rootCs)) "Recycle Bin" =
                some (.folder (setKey bcs (itemName ++ "_" ++ tsName)
                  (item.withMeta ⟨some (a :: ps), some itemName, some tsDeleted⟩)) bm) := by
              rw [lookupChild_replaceChild_ne _ _ _ _ (fun e => ha e.symm),
                lookupChild_replaceChild_self, hbin]
              rfl
            have hB := lookupChild_setKey_self bcs (itemName ++ "_" ++ tsName)
              (item.withMeta ⟨some (a :: ps), some itemName, some tsDeleted⟩)
            have hstep1 : lookupChild (replaceChild a
                (updateAt ps (fun cs => delKey cs itemName))
                (replaceChild "Recycle Bin"
                  (updateAt [] (fun cs => setKey cs (itemName ++ "_" ++ tsName)
                    (item.withMeta ⟨some (a :: ps), some itemName, some tsDeleted⟩)))
                  rootCs)) a = some (updateAt ps (fun cs => delKey cs itemName) c) := by
              rw [lookupChild_replaceChild_self,
                lookupChild_replaceChild_ne _ _ _ _ ha, hla]
              rfl
            have hstep2 : getNodeByPath
                (updateAt ps (fun cs => delKey cs itemName) c) ps =
                some (.folder (delKey srcCs itemName) srcM) := by
              have h2 := getNodeByPath_updateAt_append c ps []
                (fun cs => delKey cs itemName) srcCs srcM hsrc
              rw [List.append_nil] at h2
              exact h2.trans (getNodeByPath_nil _)
            have hd : getNodeByPath (.folder (replaceChild a
                (updateAt ps (fun cs => delKey cs itemName))
                (replaceChild "Recycle Bin"
                  (updateAt [] (fun cs => setKey cs (itemName ++ "_" ++ tsName)
                    (item.withMeta ⟨some (a :: ps), some itemName, some tsDeleted⟩)))
                  rootCs)) rootMeta) (a :: ps) =
                some (.folder (delKey srcCs itemName) srcM) := by
              simp only [getNodeByPath, hstep1, hstep2]
            have hres := restore_eval_cons _ rootMeta (itemName ++ "_" ++ tsName)
              itemName _ bm
              (item.withMeta ⟨some (a :: ps), some itemName, some tsDeleted⟩)
              a ps _ srcM hA hB hrop hron hd
            rw [hres]
            refine ⟨rfl, ?_⟩
            rw [hstrip]
            -- reassemble: the two recycle-bin edits cancel, the two source-folder
            -- edits compose to a lookup-preserving transformation
            rw [show (FSNode.folder (replaceChild a
                (updateAt ps (fun cs => delKey cs itemName))
                (replaceChild "Recycle Bin"
                  (updateAt [] (fun cs => setKey cs (itemName ++ "_" ++ tsName)
                    (item.withMeta ⟨some (a :: ps), some itemName, some tsDeleted⟩)))
                  rootCs)) rootMeta) =
              updateAt (a :: ps) (fun cs => delKey cs itemName)
                (updateAt ["Recycle Bin"]
                  (fun cs => setKey cs (itemName ++ "_" ++ tsName)
                    (item.withMeta ⟨some (a :: ps), some itemName, some tsDeleted⟩))
                  (.folder rootCs rootMeta)) from by
              rw [updateAt_cons, updateAt_cons]]
            rw [updateAt_updateAt]
            rw [updateAt_comm_head _ _ _ _ _ _ _ ha]
            rw [updateAt_updateAt]
            have hbincancel : updateAt ["Recycle Bin"]
                (fun cs => delKey (setKey cs (itemName ++ "_" ++ tsName)
                  (item.withMeta ⟨some (a :: ps), some itemName, some tsDeleted⟩))
                  (itemName ++ "_" ++ tsName))
                (updateAt (a :: ps)
                  (fun cs => (fun cs2 => setKey cs2 itemName item)
                    ((fun cs2 => delKey cs2 itemName) cs))
                  (.folder rootCs rootMeta)) =
                updateAt (a :: ps)
                  (fun cs => (fun cs2 => setKey cs2 itemName item)
                    ((fun cs2 => delKey cs2 itemName) cs))
                  (.folder rootCs rootMeta) := by
              rw [updateAt_cons]
              rw [updateAt_cons]
              refine congrArg (fun x => FSNode.folder x rootMeta) ?_
              refine replaceChild_of_fix _ _ _ (fun c2 hcl => ?_)
              rw [lookupChild_replaceChild_ne _ _ _ _ (fun e => ha e.symm), hbin] at hcl
              injection hcl with hcl
              subst hcl
              rw [updateAt_nil]
              refine congrArg (fun x => FSNode.folder x bm) ?_
              exact delKey_setKey_fresh _ _ _ hfresh
            rw [hbincancel]
            exact nodeEquiv_updateAt_of_lookupEq (a :: ps) _ _ srcCs srcM
              (by simp only [getNodeByPath, hla]; exact hsrc)
              (lookupEq_setKey_delKey srcCs itemName item hitem)

/-- Witness for C1: deleting then restoring a file from the root of a tree
that already has an (empty) recycle bin round-trips. -/
theorem claim_move_restore_roundtrip_witness :
    ∃ t, moveToRecycleBin (.folder [("Recycle Bin", .folder [] noMeta),
        ("a", .file "pdf" 3 none noMeta)] noMeta) [] "a" "T" "D" = .ret true t ∧
      (restoreFromRecycleBin t ("a" ++ "_" ++ "T")).1 = true ∧
      NodeEquiv (restoreFromRecycleBin t ("a" ++ "_" ++ "T")).2
        (.folder [("Recycle Bin", .folder [] noMeta),
          ("a", .file "pdf" 3 none noMeta)] noMeta) :=
  claim_move_restore_roundtrip
    [("Recycle Bin", .folder [] noMeta), ("a", .file "pdf" 3 none noMeta)] noMeta
    [] "a" "T" "D"
    [("Recycle Bin", .folder [] noMeta), ("a", .file "pdf" 3 none noMeta)] noMeta
    (.file "pdf" 3 none noMeta) [] noMeta
    rfl rfl rfl (by decide) (by intro h; exact absurd h.2 (by decide)) rfl rfl

/-- Counterexample for C1 as stated: when the tree has no recycle bin yet,
the move lazily creates one, and after the restore an empty
`"Recycle Bin"` folder remains at the root, so the final tree is not equal
(as order-irrelevant nested maps) to the original. -/
theorem claim_move_restore_roundtrip_counterexample :
    moveToRecycleBin (.folder [("a", .file "txt" 1 none noMeta)] noMeta) [] "a" "T" "D" =
      .ret true (.folder [("Recycle Bin", .folder
        [("a_T", .file "txt" 1 none ⟨some [], some "a", some "D"⟩)] noMeta)] noMeta) ∧
    (restoreFromRecycleBin (.folder [("Recycle Bin", .folder
        [("a_T", .file "txt" 1 none ⟨some [], some "a", some "D"⟩)] noMeta)] noMeta)
      "a_T").1 = true ∧
    ¬ NodeEquiv (restoreFromRecycleBin (.folder [("Recycle Bin", .folder
        [("a_T", .file "txt" 1 none ⟨some [], some "a", some "D"⟩)] noMeta)] noMeta)
      "a_T").2 (.folder [("a", .file "txt" 1 none noMeta)] noMeta) := by
  refine ⟨rfl, rfl, ?_⟩
  intro h
  cases h with
  | folder cs cs2 m hl =>
      have h2 := hl "Recycle Bin"
      simp [lookupChild] at h2
      cases h2
